import Mathlib

set_option maxRecDepth 100000

/-!
Verification development for the CaptionDecompiler program
(src/CaptionDecompiler.py).

The Python source is shallowly embedded: byte strings become `List Nat`
(each element a byte value), Python `int` becomes `Nat` (with `Int` where
Python arithmetic can go negative), fallible operations return
`Except String`, and `while` loops become structurally recursive
functions.  Loops of the source that iterate once per binary digit of a
value (`while y != 0: ... y >>= 1`) are given an explicit iteration
budget of 64, which makes the recursion structural (hence computable by
the kernel); the budget is exact for every operand below `2 ^ 64`, and
every operand that occurs in the program or in the theorems below stays
below `2 ^ 34`.
-/

namespace CaptionDecompiler

/-! ## Byte-level helpers (Python built-ins used by the source) -/

/-- Python `int.from_bytes(bs, "little")`. -/
def leBytesToNat : List Nat → Nat
  | [] => 0
  | b :: rest => b + 256 * leBytesToNat rest

/-- Python `bytes.decode("ascii")` (strict): every byte must be below 128. -/
def decodeAscii : List Nat → Except String String
  | [] => .ok ""
  | b :: rest =>
    if b < 128 then
      match decodeAscii rest with
      | .ok s => .ok (String.mk (Char.ofNat b :: s.toList))
      | .error e => .error e
    else .error "ascii decode error"

/-- Python `bytearray(s, "ascii")`: every character must be below 128. -/
def encodeAscii (s : String) : Except String (List Nat) :=
  if s.toList.all (fun c => c.toNat < 128) then .ok (s.toList.map Char.toNat)
  else .error "ascii encode error"

/-- Python `bytes(s, "utf-8")`: standard UTF-8 encoding of a character list. -/
def encodeUtf8 : List Char → List Nat
  | [] => []
  | c :: rest =>
    let n := c.toNat
    (if n < 0x80 then [n]
     else if n < 0x800 then [0xC0 + n / 0x40, 0x80 + n % 0x40]
     else if n < 0x10000 then
       [0xE0 + n / 0x1000, 0x80 + n / 0x40 % 0x40, 0x80 + n % 0x40]
     else
       [0xF0 + n / 0x40000, 0x80 + n / 0x1000 % 0x40,
        0x80 + n / 0x40 % 0x40, 0x80 + n % 0x40]) ++ encodeUtf8 rest

/-- Python `bytes.decode()` (strict UTF-8): rejects malformed sequences,
overlong encodings, surrogate code points, and code points above
`0x10FFFF`, as CPython's strict codec does.  Returns `none` on failure. -/
def utf8Head (b : Nat) (rest : List Nat) : Option (Nat × List Nat) :=
  if b < 0x80 then some (b, rest)
  else if 0xC2 ≤ b ∧ b ≤ 0xDF then
    match rest with
    | b1 :: rest' =>
      if 0x80 ≤ b1 ∧ b1 ≤ 0xBF then some ((b - 0xC0) * 0x40 + (b1 - 0x80), rest')
      else none
    | [] => none
  else if 0xE0 ≤ b ∧ b ≤ 0xEF then
    match rest with
    | b1 :: b2 :: rest' =>
      if (0x80 ≤ b1 ∧ b1 ≤ 0xBF) ∧ (0x80 ≤ b2 ∧ b2 ≤ 0xBF) ∧
         (b = 0xE0 → 0xA0 ≤ b1) ∧ (b = 0xED → b1 ≤ 0x9F) then
        some ((b - 0xE0) * 0x1000 + (b1 - 0x80) * 0x40 + (b2 - 0x80), rest')
      else none
    | _ => none
  else if 0xF0 ≤ b ∧ b ≤ 0xF4 then
    match rest with
    | b1 :: b2 :: b3 :: rest' =>
      if (0x80 ≤ b1 ∧ b1 ≤ 0xBF) ∧ (0x80 ≤ b2 ∧ b2 ≤ 0xBF) ∧ (0x80 ≤ b3 ∧ b3 ≤ 0xBF) ∧
         (b = 0xF0 → 0x90 ≤ b1) ∧ (b = 0xF4 → b1 ≤ 0x8F) then
        some ((b - 0xF0) * 0x40000 + (b1 - 0x80) * 0x1000 + (b2 - 0x80) * 0x40 + (b3 - 0x80),
          rest')
      else none
    | _ => none
  else none

/-- Loop of the strict UTF-8 decoder; the budget is the byte count (one
head sequence consumes at least one byte, so `bs.length` budget is
always enough). -/
def decodeUtf8Go (fuel : Nat) (bs : List Nat) : Option (List Char) :=
  match bs with
  | [] => some []
  | b :: rest =>
    match fuel with
    | 0 => none
    | fuel' + 1 =>
      match utf8Head b rest with
      | some (code, rest') =>
        match decodeUtf8Go fuel' rest' with
        | some cs => some (Char.ofNat code :: cs)
        | none => none
      | none => none

/-- Python `bytes.decode()` (strict UTF-8): one code point per head
sequence (`utf8Head`), rejecting malformed sequences, overlong
encodings, surrogate code points, and code points above `0x10FFFF`, as
CPython's strict codec does.  Returns `none` on failure. -/
def decodeUtf8 (bs : List Nat) : Option (List Char) := decodeUtf8Go bs.length bs

/-- Python `str.rjust(width, fill)`. -/
def rjust (s : String) (width : Nat) (fill : Char) : String :=
  if width ≤ s.length then s
  else String.mk (List.replicate (width - s.length) fill ++ s.toList)

/-! ## CRC-32 (`zlib.crc32`)

The standard reflected CRC-32: initial value `0xFFFFFFFF`, reflected
polynomial `0xEDB88320`, final XOR `0xFFFFFFFF`, processed bit by bit. -/

/-- One bit step of the reflected CRC-32. -/
def crc32BitStep (c : Nat) : Nat :=
  if c &&& 1 = 1 then (c >>> 1) ^^^ 0xEDB88320 else c >>> 1

/-- Eight bit steps (one byte). -/
def crc32ByteGo : Nat → Nat → Nat
  | 0, c => c
  | n + 1, c => crc32ByteGo n (crc32BitStep c)

/-- CRC-32 running update by one byte. -/
def crc32Update (c b : Nat) : Nat := crc32ByteGo 8 (c ^^^ b)

/-- Python `zlib.crc32(data)` on a byte list. -/
def crc32 (data : List Nat) : Nat :=
  (data.foldl crc32Update 0xFFFFFFFF) ^^^ 0xFFFFFFFF

/-! ## Checksum Engine (the functions nested inside `generateStrWithNewCRC`) -/

/-- The CRC-32 generator polynomial, 33-bit form (source constant
`POLYNOMIAL`). -/
def POLYNOMIAL : Nat := 0x104C11DB7

/-- Python `int.bit_length()`, iteration budget 64 (exact below `2 ^ 64`). -/
def bitLengthGo : Nat → Nat → Nat
  | 0, _ => 0
  | fuel + 1, n => if n = 0 then 0 else bitLengthGo fuel (n >>> 1) + 1

/-- Python `int.bit_length()` for the operand sizes this program uses. -/
def bit_length (n : Nat) : Nat := bitLengthGo 64 n

/-- Loop of `reverse32`: 32 rounds of `y = (y << 1) | (x & 1); x >>= 1`. -/
def rev32Go : Nat → Nat → Nat → Nat
  | 0, _, y => y
  | n + 1, x, y => rev32Go n (x >>> 1) ((y <<< 1) ||| (x &&& 1))

/-- Source `reverse32`: bit-order reversal of the low 32 bits. -/
def reverse32 (x : Nat) : Nat := rev32Go 32 x 0

/-- Loop of `multiply_mod` (`while y != 0`), one iteration per binary
digit of `y`; budget 64 (exact for `y < 2 ^ 64`). -/
def multiplyModGo : Nat → Nat → Nat → Nat → Nat
  | 0, _, _, z => z
  | fuel + 1, x, y, z =>
    if y = 0 then z
    else
      let z' := z ^^^ x * (y &&& 1)
      let x' := x <<< 1
      let x'' := if (x' >>> 32) &&& 1 ≠ 0 then x' ^^^ POLYNOMIAL else x'
      multiplyModGo fuel x'' (y >>> 1) z'

/-- Source `multiply_mod`: product of the polynomials `x` and `y` over
GF(2), reduced modulo the generator whenever the shifted operand reaches
bit 32. -/
def multiply_mod (x y : Nat) : Nat := multiplyModGo 64 x y 0

/-- Loop of `divide_and_remainder`: at budget `n + 1` the next index is
`i = n`, matching Python's `for i in range(top, -1, -1)`; the state is
`(x, z)` and the result `(z, x)` (quotient, remainder). -/
def divideGo (y ydeg : Nat) : Nat → Nat → Nat → Nat × Nat
  | 0, x, z => (z, x)
  | n + 1, x, z =>
    if (x >>> (n + ydeg)) &&& 1 ≠ 0 then
      divideGo y ydeg n (x ^^^ (y <<< n)) (z ||| (1 <<< n))
    else
      divideGo y ydeg n x z

/-- Source `divide_and_remainder`: GF(2) polynomial long division,
raising on a zero divisor.  Python's `range(start, -1, -1)` is empty
when `start` is negative, i.e. when `x` has lower degree than `y`. -/
def divide_and_remainder (x y : Nat) : Except String (Nat × Nat) :=
  if y = 0 then .error "Division by zero"
  else if x = 0 then .ok (0, 0)
  else
    let ydeg := bit_length y - 1
    if bit_length x - 1 < ydeg then .ok (0, x)
    else .ok (divideGo y ydeg ((bit_length x - 1) - ydeg + 1) x 0)

/-- The square-and-multiply loop embedded in `reciprocal_mod`
(`pow_mod`), one iteration per binary digit of `b`; budget 64. -/
def powModGo : Nat → Nat → Nat → Nat → Nat
  | 0, x, _, _ => x
  | fuel + 1, x, a, b =>
    if b = 0 then x
    else
      let x' := if b &&& 1 ≠ 0 then multiply_mod x a else x
      powModGo fuel x' (multiply_mod a a) (b >>> 1)

/-- The extended-Euclid loop of `reciprocal_mod` (`while y != 0`).  The
budget only has to cover the loop's iteration count, which is bounded by
the bit length of the initial `y` plus one because remainders strictly
lose degree; on exhaustion (unreachable for the values this program
produces) an error is returned. -/
def euclidGo : Nat → Nat → Nat → Nat → Nat → Except String Nat
  | 0, _, _, _, _ => .error "loop budget exhausted"
  | fuel + 1, x, y, a, b =>
    if y = 0 then
      if x = 1 then .ok a else .error "Reciprocal does not exist"
    else
      match divide_and_remainder x y with
      | .error e => .error e
      | .ok (q, r) => euclidGo fuel y r b (a ^^^ multiply_mod q b)

/-- Source `reciprocal_mod`: computes `pow_mod(2, (length - offset) * 8)`
and then its multiplicative inverse modulo the generator polynomial.
`length` and `offset` are the enclosing scope's Python ints
(`offset = length - 4`, so the exponent is always 32). -/
def reciprocal_mod (length offset : Int) : Except String Nat :=
  let e := ((length - offset) * 8).toNat
  let p := powModGo 64 1 2 e
  euclidGo (bit_length p + 1) POLYNOMIAL p 0 1

/-- One Python bytearray cell update `l[i] ^= v` with Python index
semantics (a negative index counts from the end; out of range raises). -/
def pySetXor (l : List Nat) (i : Int) (v : Nat) : Except String (List Nat) :=
  let j : Int := if i < 0 then i + l.length else i
  if 0 ≤ j ∧ j < (l.length : Int) then
    .ok (l.set j.toNat (l.getD j.toNat 0 ^^^ v))
  else .error "index out of range"

/-- The patch loop of `modify_string_crc32`:
`for i in range(4): string[offset+i] ^= (rev >> (i*8)) & 0xFF`. -/
def patch4 (l : List Nat) (offset : Int) (rev : Nat) : Except String (List Nat) :=
  match pySetXor l (offset + 0) ((rev >>> (0 * 8)) &&& 0xFF) with
  | .error e => .error e
  | .ok l =>
    match pySetXor l (offset + 1) ((rev >>> (1 * 8)) &&& 0xFF) with
    | .error e => .error e
    | .ok l =>
      match pySetXor l (offset + 2) ((rev >>> (2 * 8)) &&& 0xFF) with
      | .error e => .error e
      | .ok l =>
        match pySetXor l (offset + 3) ((rev >>> (3 * 8)) &&& 0xFF) with
        | .error e => .error e
        | .ok l => .ok l

/-- Source `modify_string_crc32`: converts the string to ASCII bytes,
computes the CRC delta to the requested value, solves for the 4-byte
patch with the polynomial algebra, patches the last 4 bytes, and
re-checks the CRC of the result, raising `AssertionError` (here,
`Except.error`) on mismatch. -/
def modify_string_crc32 (string : String) (newcrc : Nat) : Except String (List Nat) :=
  match encodeAscii string with
  | .error e => .error e
  | .ok bytes =>
    let length := bytes.length
    let offset : Int := (length : Int) - 4
    if offset + 4 > (length : Int) then
      .error "Byte offset plus 4 exceeds file length"
    else
      let crc := crc32 bytes
      let delta := crc ^^^ newcrc
      match reciprocal_mod (length : Int) offset with
      | .error e => .error e
      | .ok recip =>
        let delta := multiply_mod recip (reverse32 delta)
        match patch4 bytes offset (reverse32 delta) with
        | .error e => .error e
        | .ok patched =>
          if crc32 patched ≠ newcrc then
            .error "Failed to update CRC-32 to desired value"
          else
            .ok patched

/-! ## Identifier Forcer (`generateStrWithNewCRC`) -/

/-- The legal output alphabet (source constant `USABLE_CHARS`). -/
def USABLE_CHARS : String := "0123456789abcdefghijklmnopqrstuvwxyz"

/-- The candidate enumeration of the forcer: the four nested
`for c in USABLE_CHARS` loops, in iteration order. -/
def candidateQuads : List (Char × Char × Char × Char) :=
  USABLE_CHARS.toList.flatMap fun c1 =>
    USABLE_CHARS.toList.flatMap fun c2 =>
      USABLE_CHARS.toList.flatMap fun c3 =>
        USABLE_CHARS.toList.map fun c4 => (c1, c2, c3, c4)

/-- The candidate string the loop body hands to `modify_string_crc32`:
the skeleton, the three-plus-one free characters, and the fixed
`"0000"` patch zone. -/
def candidateString (string : String) : Char × Char × Char × Char → String
  | (c1, c2, c3, c4) =>
    string ++ String.mk [c1, c2, c3, c4] ++ "0000"

/-- One iteration of the forcer's innermost loop body: patch the
candidate, then accept it iff its decoded last four characters all lie
in the legal alphabet (`.ok none` = rejected, keep searching; a failed
decode leaves the sentinel `"-"` in `end`, which is rejected). -/
def tryQuad (string : String) (newcrc : Nat) (q : Char × Char × Char × Char) :
    Except String (Option (List Char)) :=
  match modify_string_crc32 (candidateString string q) newcrc with
  | .error e => .error e
  | .ok newString =>
    match decodeUtf8 newString with
    | none => .ok none
    | some cs =>
      let ending := cs.drop (cs.length - 4)
      if (ending.filter (fun c => !(USABLE_CHARS.toList.contains c))).length > 0 then
        .ok none
      else .ok (some cs)

/-- The forcer's search over a list of candidate quadruples: first
accepted candidate wins; an uncaught exception aborts the search. -/
def searchQuads (string : String) (newcrc : Nat) :
    List (Char × Char × Char × Char) → Except String (Option (List Char))
  | [] => .ok none
  | q :: rest =>
    match tryQuad string newcrc q with
    | .error e => .error e
    | .ok (some s) => .ok (some s)
    | .ok none => searchQuads string newcrc rest

/-- Source `generateStrWithNewCRC`: search the whole quadruple space.
Python returns the decoded string on success and the integer `-1` on
exhaustion; here `.ok (some cs)` / `.ok none` respectively, with
uncaught exceptions as `.error`. -/
def generateStrWithNewCRC (string : String) (newcrc : Nat) :
    Except String (Option (List Char)) :=
  searchQuads string newcrc candidateQuads

/-! ## Python dict (insertion ordered, assignment replaces in place) -/

/-- Python `d[k] = v`: replace the value at an existing key (keeping its
insertion position), else append at the end. -/
def dictUpsert {α β : Type} [DecidableEq α] : List (α × β) → α → β → List (α × β)
  | [], k, v => [(k, v)]
  | (k', v') :: rest, k, v =>
    if k' = k then (k, v) :: rest else (k', v') :: dictUpsert rest k v

/-- Python `d[k]` / `k in d`. -/
def dictLookup {α β : Type} [DecidableEq α] : List (α × β) → α → Option β
  | [], _ => none
  | (k', v') :: rest, k => if k' = k then some v' else dictLookup rest k

/-! ## Soundscript Hash Index (`getSoundscriptsFromFiles`) -/

/-- The hashing loop of source `getSoundscriptsFromFiles`:
`for s in foundSoundscripts: soundscriptCandidates[zlib.crc32(bytes(s, "utf-8"))] = s`.
Collecting `foundSoundscripts` from manifests and name lists is external
collaborator work and is taken here as the given list. -/
def getSoundscriptsFromFiles (foundSoundscripts : List String) : List (Nat × String) :=
  foundSoundscripts.foldl (fun d s => dictUpsert d (crc32 (encodeUtf8 s.toList)) s) []

/-! ## Archive Reader -/

/-- One directory entry (source dict with keys hash/index/offset/length). -/
structure DirEntry where
  hash : Nat
  index : Nat
  offset : Nat
  length : Nat
deriving DecidableEq

/-- The opened binary file: its bytes and the current read position. -/
structure ByteStream where
  data : List Nat
  pos : Nat
deriving DecidableEq

/-- Python `file.read(n)`: returns the available bytes (possibly fewer
than `n` at end of stream, never more) and advances the position by the
number of bytes actually read. -/
def fread (n : Nat) (st : ByteStream) : List Nat × ByteStream :=
  let taken := (st.data.drop st.pos).take n
  (taken, ⟨st.data, st.pos + taken.length⟩)

/-- Python `file.seek(p)` (absolute). -/
def fseek (p : Nat) (st : ByteStream) : ByteStream := ⟨st.data, p⟩

/-- Loop of source `getDirEntries`: read `hash`, `index`, `offset`,
`length` (4+4+2+2 little-endian bytes) per entry. -/
def getDirEntriesGo : Nat → ByteStream → List DirEntry × ByteStream
  | 0, st => ([], st)
  | n + 1, st =>
    let (h, st1) := fread 4 st
    let (bi, st2) := fread 4 st1
    let (off, st3) := fread 2 st2
    let (len, st4) := fread 2 st3
    let e : DirEntry := ⟨leBytesToNat h, leBytesToNat bi, leBytesToNat off, leBytesToNat len⟩
    let (rest, st5) := getDirEntriesGo n st4
    (e :: rest, st5)

/-- Source `getDirEntries`: seek to the end of the header and read all
directory entries. -/
def getDirEntries (st : ByteStream) (HEADER_SIZE DIRECTORY_SIZE : Nat) :
    List DirEntry × ByteStream :=
  getDirEntriesGo DIRECTORY_SIZE (fseek HEADER_SIZE st)

/-- Python `chunk.decode("utf_16_le")` on the result of one
`file.read(2)`: empty input gives the empty string, a single byte is a
truncation error, a lone surrogate code unit is a decode error. -/
def decodeUtf16lePair : List Nat → Except String String
  | [] => .ok ""
  | [_] => .error "utf-16-le decode error: truncated data"
  | b0 :: b1 :: _ =>
    let unit := b0 + 256 * b1
    if 0xD800 ≤ unit ∧ unit ≤ 0xDFFF then .error "utf-16-le decode error: surrogate"
    else .ok (String.mk [Char.ofNat unit])

/-- The caption-text loop of `readCaptionBlocks`:
`for _ in range(int(length/2)-1): caption += file.read(2).decode("utf_16_le")`.
The third component extends the running trace of stream positions, one
entry per read. -/
def readCaptionGo : Nat → ByteStream → String → List Nat →
    Except String (String × ByteStream × List Nat)
  | 0, st, acc, tr => .ok (acc, st, tr)
  | n + 1, st, acc, tr =>
    let (bs, st') := fread 2 st
    match decodeUtf16lePair bs with
    | .error e => .error e
    | .ok s => readCaptionGo n st' (acc ++ s) (tr ++ [st'.pos])

/-- The per-entry loop of source `readCaptionBlocks`.  State: remaining
entries, stream, current `blockIndex`, `ssHashMatches`, the
`finalCaptions` dict, and the trace of stream positions (one entry per
seek and per read). -/
def readBlocksGo (cands : List (Nat × String)) (D BS : Nat) (same_hashes : Bool) :
    List DirEntry → ByteStream → Nat → Nat → List (String × String) → List Nat →
    Except String (List (String × String) × Nat × List Nat)
  | [], _, _, ssHashMatches, caps, tr => .ok (caps, ssHashMatches, tr)
  | e :: rest, st, blockIndex, ssHashMatches, caps, tr =>
    let st1 := if e.index > blockIndex then fseek (D + BS * e.index) st else st
    let tr1 := if e.index > blockIndex then tr ++ [D + BS * e.index] else tr
    match readCaptionGo (e.length / 2 - 1) st1 "" tr1 with
    | .error err => .error err
    | .ok (caption, st2, tr2) =>
      let (_, st3) := fread 2 st2
      let tr3 := tr2 ++ [st3.pos]
      let captionName := rjust (Nat.repr e.hash) 10 '0'
      if cands.length > 0 then
        match dictLookup cands e.hash with
        | some nm =>
          readBlocksGo cands D BS same_hashes rest st3 e.index (ssHashMatches + 1)
            (dictUpsert caps nm caption) tr3
        | none =>
          if same_hashes then
            match generateStrWithNewCRC (captionName ++ ".") e.hash with
            | .error err => .error err
            | .ok (some cs) =>
              readBlocksGo cands D BS same_hashes rest st3 e.index ssHashMatches
                (dictUpsert caps (String.mk cs) caption) tr3
            | .ok none =>
              readBlocksGo cands D BS same_hashes rest st3 e.index ssHashMatches
                (dictUpsert caps "-1" caption) tr3
          else
            readBlocksGo cands D BS same_hashes rest st3 e.index ssHashMatches
              (dictUpsert caps captionName caption) tr3
      else
        readBlocksGo cands D BS same_hashes rest st3 e.index ssHashMatches
          (dictUpsert caps captionName caption) tr3

/-- Source `readCaptionBlocks`: seek to `DATA_OFFSET`, then process
every directory entry in file order, seeking to
`DATA_OFFSET + BLOCK_SIZE * entry.index` exactly when the entry's block
index exceeds the current one.  Returns the `finalCaptions` dict, the
match count `ssHashMatches`, and the trace of stream positions.
Python's unmatched placeholder is the hash as a 10-digit zero-padded
decimal; with `same_hashes` the forcer replaces it (its Python `-1`
exhaustion value is rendered as the string `"-1"`, which is how it
would print in the output file). -/
def readCaptionBlocks (st : ByteStream) (entries : List DirEntry)
    (cands : List (Nat × String)) (DATA_OFFSET BLOCK_SIZE : Nat) (same_hashes : Bool) :
    Except String (List (String × String) × Nat × List Nat) :=
  readBlocksGo cands DATA_OFFSET BLOCK_SIZE same_hashes entries
    (fseek DATA_OFFSET st) 0 0 [] [DATA_OFFSET]

/-! ## Text Emitter (`writeCaptions`) and `main` glue -/

/-- The output-formatting switches of the argument parser (`args.*`). -/
structure Args where
  padding : Nat
  tabs : Bool
  no_align : Bool
  same_hashes : Bool

/-- The `padChar` computed at the top of `writeCaptions`: a tab by
default; with the `tabs` switch (which, per the source, *disables* tabs)
`padding` many spaces, or the empty string when `padding` is zero. -/
def padCharOf (args : Args) : String :=
  let padChar := if args.tabs then "" else "\t"
  if args.padding > 0 ∧ args.tabs then String.mk (List.replicate args.padding ' ')
  else padChar

/-- The `padAmount` of `writeCaptions` for a key of length `nameLen`:
`ceil(maxCaptionLength / padding) - floor((nameLen+2) / padding)` in tab
mode, overwritten by
`(maxCaptionLength + (padding - maxCaptionLength % padding)) - (nameLen+2)`
in spaces mode.  Python's float `ceil(M / p)` is exact at these sizes
and equals `(M + p - 1) / p`; a negative Python result makes
`range(padAmount)` empty, matching truncated `Nat` subtraction. -/
def padAmountOf (args : Args) (maxCaptionLength nameLen : Nat) : Nat :=
  if args.tabs then
    (maxCaptionLength + (args.padding - maxCaptionLength % args.padding)) - (nameLen + 2)
  else
    (maxCaptionLength + args.padding - 1) / args.padding - (nameLen + 2) / args.padding

/-- The `paddingAlignment` string placed between the quoted key and the
quoted value: `padAmount` copies of the inner pad character when
alignment is active, the bare `padChar` otherwise. -/
def paddingAlignmentOf (args : Args) (maxCaptionLength nameLen : Nat) : String :=
  if ¬args.no_align ∧ args.padding > 0 then
    let innerPadChar := if args.tabs then " " else padCharOf args
    String.join (List.replicate (padAmountOf args maxCaptionLength nameLen) innerPadChar)
  else padCharOf args

/-- One output line of `writeCaptions`:
`padChar*2 + "name" + paddingAlignment + "caption" + newline`. -/
def captionLine (args : Args) (maxCaptionLength : Nat) (name caption : String) : String :=
  let padChar := padCharOf args
  padChar ++ padChar ++ "\"" ++ name ++ "\"" ++
    paddingAlignmentOf args maxCaptionLength name.length ++ "\"" ++ caption ++ "\"\n"

/-- Source `writeCaptions`: the fixed preamble, one line per caption in
dict order, and the closing brackets. -/
def writeCaptions (args : Args) (finalCaptions : List (String × String))
    (maxCaptionLength : Nat) (language : String) : String :=
  let padChar := padCharOf args
  let header := "\"lang\"\n\x7b\n" ++ padChar ++ "\"Language\" \"" ++ language ++ "\"\n" ++
    padChar ++ "\"Tokens\"\n" ++ padChar ++ "\x7b\n"
  let body := finalCaptions.foldl
    (fun out p => out ++ captionLine args maxCaptionLength p.1 p.2) header
  body ++ padChar ++ "\x7d\n\x7d"

/-- The maximum-key-length loop of `main` (lines computing
`maxCaptionLength` before the `+= 2` adjustment). -/
def maxCaptionLengthOf (finalCaptions : List (String × String)) : Nat :=
  finalCaptions.foldl (fun m p => if p.1.length > m then p.1.length else m) 0

/-- The `maxCaptionLength` adjustment of `main`: add 2 for the quotes,
then add 1 when alignment is active and the result is an exact multiple
of the padding unit (so that the computed padding never ends up being
zero, per the source comment). -/
def adjustMaxCaptionLength (args : Args) (maxLen : Nat) : Nat :=
  let M := maxLen + 2
  if ¬args.no_align ∧ args.padding > 0 ∧ M % args.padding = 0 then M + 1 else M

/-- The core pipeline of source `main` on an opened byte stream: check
the magic tag, check the version, read the remaining header fields,
read the directory, build the candidate index, read the caption blocks,
compute the alignment width, and render the output text.  A returned
`.ok` value is the text written to the output file; `.error` is an
aborted run that writes nothing. -/
def runMain (data : List Nat) (foundSoundscripts : List String) (args : Args)
    (language : String) : Except String String :=
  let st0 : ByteStream := ⟨data, 0⟩
  let (magicBytes, st1) := fread 4 st0
  match decodeAscii magicBytes with
  | .error e => .error e
  | .ok MAGIC =>
    if MAGIC ≠ "VCCD" then .error "ERROR: Invalid caption file (MAGIC != VCCD)"
    else
      let (vb, st2) := fread 4 st1
      let VERSION := leBytesToNat vb
      if VERSION ≠ 1 then .error "ERROR: Invalid file version. Version must be 1!"
      else
        let (_nb, st3) := fread 4 st2
        let (bsb, st4) := fread 4 st3
        let BLOCK_SIZE := leBytesToNat bsb
        let (dsb, st5) := fread 4 st4
        let DIRECTORY_SIZE := leBytesToNat dsb
        let (dob, st6) := fread 4 st5
        let DATA_OFFSET := leBytesToNat dob
        let (captionDirEntries, st7) := getDirEntries st6 24 DIRECTORY_SIZE
        let soundscriptCandidates := getSoundscriptsFromFiles foundSoundscripts
        match readCaptionBlocks st7 captionDirEntries soundscriptCandidates DATA_OFFSET
            BLOCK_SIZE args.same_hashes with
        | .error e => .error e
        | .ok (finalCaptions, _matches, _trace) =>
          let maxCaptionLength := adjustMaxCaptionLength args (maxCaptionLengthOf finalCaptions)
          .ok (writeCaptions args finalCaptions maxCaptionLength language)

/-! ## GF(2) polynomial arithmetic over `Nat` bit vectors (proof layer) -/

/-- Carry-less (GF(2)) polynomial product of two bit vectors; the
reference object against which the Checksum Engine is proved. -/
def pmul (x y : Nat) : Nat :=
  if h : x = 0 then 0
  else (if x % 2 = 1 then y else 0) ^^^ 2 * pmul (x / 2) y
termination_by x
decreasing_by exact Nat.div_lt_self (Nat.pos_of_ne_zero h) Nat.one_lt_two

/-- Congruence modulo the generator polynomial, over the carry-less
product: `a` and `b` differ by a `pmul` multiple of `POLYNOMIAL`. -/
def pequiv (a b : Nat) : Prop := ∃ q, a ^^^ b = pmul q POLYNOMIAL

/-! ## Theorems: GF(2) arithmetic toolkit -/

theorem pmul_zero_left (y : Nat) : pmul 0 y = 0 := by
  rw [pmul]; simp

theorem pmul_ne_zero_def {x : Nat} (h : x ≠ 0) (y : Nat) :
    pmul x y = (if x % 2 = 1 then y else 0) ^^^ 2 * pmul (x / 2) y := by
  rw [pmul]; simp [h]

theorem testBit_double (a j : Nat) :
    (2 * a).testBit j = (decide (j ≥ 1) && a.testBit (j - 1)) := by
  have h : 2 * a = a <<< 1 := by rw [Nat.shiftLeft_eq]; ring
  rw [h, Nat.testBit_shiftLeft]

theorem two_mul_xor (a b : Nat) : 2 * (a ^^^ b) = 2 * a ^^^ 2 * b := by
  apply Nat.eq_of_testBit_eq
  intro i
  rw [Nat.testBit_xor, testBit_double, testBit_double, testBit_double, Nat.testBit_xor]
  cases h : decide (i ≥ 1) <;> simp

theorem xor_div_two (a b : Nat) : (a ^^^ b) / 2 = a / 2 ^^^ b / 2 := by
  apply Nat.eq_of_testBit_eq
  intro i
  have h1 : ∀ c : Nat, (c / 2).testBit i = c.testBit (i + 1) := fun c =>
    (Nat.testBit_succ c i).symm
  rw [h1, Nat.testBit_xor, Nat.testBit_xor, h1, h1]

theorem xor_mod_two (a b : Nat) : (a ^^^ b) % 2 = (a % 2 + b % 2) % 2 := by
  have h := Nat.testBit_xor a b 0
  simp only [Nat.testBit_zero] at h
  rcases Nat.mod_two_eq_zero_or_one a with ha | ha <;>
    rcases Nat.mod_two_eq_zero_or_one b with hb | hb <;>
      simp [ha, hb] at h ⊢ <;> omega

theorem xor_left_comm (a b c : Nat) : a ^^^ (b ^^^ c) = b ^^^ (a ^^^ c) := by
  rw [← Nat.xor_assoc, Nat.xor_comm a b, Nat.xor_assoc]

theorem pmul_zero_right (x : Nat) : pmul x 0 = 0 := by
  induction x using Nat.strong_induction_on with
  | _ x ih =>
    rcases eq_or_ne x 0 with h | h
    · rw [h, pmul_zero_left]
    · rw [pmul_ne_zero_def h, ih (x / 2) (Nat.div_lt_self (Nat.pos_of_ne_zero h) Nat.one_lt_two)]
      simp

theorem pmul_one_left (y : Nat) : pmul 1 y = y := by
  rw [pmul_ne_zero_def one_ne_zero]
  norm_num [pmul_zero_left]

theorem pmul_xor_right (x y z : Nat) : pmul x (y ^^^ z) = pmul x y ^^^ pmul x z := by
  induction x using Nat.strong_induction_on with
  | _ x ih =>
    rcases eq_or_ne x 0 with h | h
    · simp [h, pmul_zero_left]
    · rw [pmul_ne_zero_def h, pmul_ne_zero_def h, pmul_ne_zero_def h,
        ih (x / 2) (Nat.div_lt_self (Nat.pos_of_ne_zero h) Nat.one_lt_two), two_mul_xor]
      rcases Nat.mod_two_eq_zero_or_one x with hx | hx <;> simp [hx]
      · rw [Nat.xor_assoc y z, xor_left_comm z (2 * pmul (x / 2) y), ← Nat.xor_assoc]

theorem pmul_two_right (x y : Nat) : pmul x (2 * y) = 2 * pmul x y := by
  induction x using Nat.strong_induction_on with
  | _ x ih =>
    rcases eq_or_ne x 0 with h | h
    · simp [h, pmul_zero_left]
    · rw [pmul_ne_zero_def h, pmul_ne_zero_def h,
        ih (x / 2) (Nat.div_lt_self (Nat.pos_of_ne_zero h) Nat.one_lt_two), two_mul_xor]
      rcases Nat.mod_two_eq_zero_or_one x with hx | hx <;> simp [hx]

theorem even_add_bit (a b : Nat) (ha : a % 2 = 0) (hb : b < 2) : a + b = a ^^^ b := by
  interval_cases b
  · simp
  · apply Nat.eq_of_testBit_eq
    intro i
    cases i with
    | zero =>
      simp only [Nat.testBit_zero, Nat.testBit_xor]
      have h0 : (a + 1) % 2 = 1 := by omega
      rw [h0, xor_mod_two, ha]
    | succ j =>
      rw [Nat.testBit_succ, Nat.testBit_xor, Nat.testBit_succ, Nat.testBit_succ]
      have h1 : (a + 1) / 2 = a / 2 := by
        rw [Nat.succ_div]
        have h2 : ¬ (2 ∣ a + 1) := by omega
        simp [h2]
      rw [h1]
      norm_num

theorem pmul_one_right (x : Nat) : pmul x 1 = x := by
  induction x using Nat.strong_induction_on with
  | _ x ih =>
    rcases eq_or_ne x 0 with h | h
    · simp [h, pmul_zero_left]
    · rw [pmul_ne_zero_def h, ih (x / 2) (Nat.div_lt_self (Nat.pos_of_ne_zero h) Nat.one_lt_two)]
      rcases Nat.mod_two_eq_zero_or_one x with hx | hx <;> simp [hx]
      · omega
      · rw [Nat.xor_comm, ← even_add_bit (2 * (x / 2)) 1 (by omega) (by norm_num)]
        omega

theorem pmul_unfold_right (x y : Nat) :
    pmul x y = (if y % 2 = 1 then x else 0) ^^^ 2 * pmul x (y / 2) := by
  have hy : y = (2 * (y / 2)) ^^^ (y % 2) := by
    rw [← even_add_bit (2 * (y / 2)) (y % 2) (by omega) (Nat.mod_lt y (by norm_num))]
    omega
  conv_lhs => rw [hy]
  rw [pmul_xor_right, pmul_two_right]
  have h3 : pmul x (y % 2) = if y % 2 = 1 then x else 0 := by
    rcases Nat.mod_two_eq_zero_or_one y with h | h <;> simp [h, pmul_zero_right, pmul_one_right]
  rw [h3, Nat.xor_comm]

theorem pmul_comm (x y : Nat) : pmul x y = pmul y x := by
  induction x using Nat.strong_induction_on with
  | _ x ih =>
    rcases eq_or_ne x 0 with h | h
    · rw [h, pmul_zero_left, pmul_zero_right]
    · rw [pmul_ne_zero_def h, ih (x / 2) (Nat.div_lt_self (Nat.pos_of_ne_zero h) Nat.one_lt_two),
        pmul_unfold_right y x]

theorem pmul_two_left (x y : Nat) : pmul (2 * x) y = 2 * pmul x y := by
  rw [pmul_comm, pmul_two_right, pmul_comm]

theorem pmul_two_pow_left (n y : Nat) : pmul (2 ^ n) y = 2 ^ n * y := by
  induction n with
  | zero => simp [pmul_one_left]
  | succ m ih =>
    rw [pow_succ, Nat.mul_comm (2 ^ m) 2, Nat.mul_assoc, pmul_two_left, ih]

theorem pmul_xor_left (x y z : Nat) : pmul (x ^^^ y) z = pmul x z ^^^ pmul y z := by
  rw [pmul_comm, pmul_xor_right, pmul_comm z x, pmul_comm z y]

theorem pmul_assoc (x y z : Nat) : pmul (pmul x y) z = pmul x (pmul y z) := by
  induction x using Nat.strong_induction_on with
  | _ x ih =>
    rcases eq_or_ne x 0 with h | h
    · rw [h, pmul_zero_left, pmul_zero_left, pmul_zero_left]
    · rw [pmul_ne_zero_def h (pmul y z), pmul_ne_zero_def h y, pmul_xor_left, pmul_two_left,
        ih (x / 2) (Nat.div_lt_self (Nat.pos_of_ne_zero h) Nat.one_lt_two)]
      rcases Nat.mod_two_eq_zero_or_one x with hx | hx
      · simp only [hx]
        norm_num [pmul_zero_left]
      · simp only [hx, if_pos]

/-! ### testBit interval and bound helpers -/

theorem testBit_of_shift (x k : Nat) : ((x >>> k) &&& 1 ≠ 0) ↔ x.testBit k = true := by
  rw [Nat.and_one_is_mod, Nat.shiftRight_eq_div_pow, Nat.testBit_to_div_mod]
  simp only [ne_eq, decide_eq_true_eq]
  omega

theorem testBit_of_interval {k v : Nat} (h1 : 2 ^ k ≤ v) (h2 : v < 2 ^ (k + 1)) :
    v.testBit k = true := by
  rw [Nat.testBit_to_div_mod]
  have hd : v / 2 ^ k = 1 := by
    apply Nat.div_eq_of_lt_le (by simpa using h1)
    rw [pow_succ] at h2
    omega
  rw [hd]
  rfl

theorem testBit_false_of_lt {v k : Nat} (h : v < 2 ^ k) : v.testBit k = false := by
  rw [Nat.testBit_to_div_mod]
  rw [Nat.div_eq_of_lt h]
  rfl

theorem lt_of_testBit_false {v k : Nat} (h1 : v < 2 ^ (k + 1)) (h2 : v.testBit k = false) :
    v < 2 ^ k := by
  rw [Nat.testBit_to_div_mod, decide_eq_false_iff_not] at h2
  have hd : v / 2 ^ k < 2 := by
    apply Nat.div_lt_of_lt_mul
    rw [pow_succ] at h1
    omega
  have h0 : v / 2 ^ k = 0 := by
    generalize hgen : v / 2 ^ k = c at h2 hd
    omega
  have hdm := Nat.div_add_mod v (2 ^ k)
  rw [h0, Nat.mul_zero, Nat.zero_add] at hdm
  have hm := Nat.mod_lt v (Nat.two_pow_pos k)
  omega

theorem ge_of_testBit_true {v k : Nat} (h : v.testBit k = true) : 2 ^ k ≤ v :=
  Nat.testBit_implies_ge h

theorem pmul_bounds : ∀ m : Nat, ∀ x y n : Nat, 2 ^ m ≤ x → x < 2 ^ (m + 1) →
    2 ^ n ≤ y → y < 2 ^ (n + 1) →
    2 ^ (m + n) ≤ pmul x y ∧ pmul x y < 2 ^ (m + n + 1) := by
  intro m
  induction m with
  | zero =>
    intro x y n h1 h2 h3 h4
    have hx : x = 1 := by norm_num at h1 h2; omega
    rw [hx, pmul_one_left]
    simpa using And.intro h3 h4
  | succ m ih =>
    intro x y n h1 h2 h3 h4
    have hx0 : x ≠ 0 := by
      have := Nat.two_pow_pos (m + 1)
      omega
    have hdiv1 : 2 ^ m ≤ x / 2 := by
      rw [Nat.le_div_iff_mul_le (by norm_num)]
      rw [pow_succ] at h1
      omega
    have hdiv2 : x / 2 < 2 ^ (m + 1) := by
      rw [Nat.div_lt_iff_lt_mul (by norm_num)]
      rw [pow_succ] at h2
      omega
    obtain ⟨hlo, hhi⟩ := ih (x / 2) y n hdiv1 hdiv2 h3 h4
    rw [pmul_ne_zero_def hx0]
    set b := (if x % 2 = 1 then y else 0) with hb
    set p := pmul (x / 2) y with hp
    have hblt : b < 2 ^ (m + 1 + n) := by
      have hyb : y < 2 ^ (m + 1 + n) := by
        calc y < 2 ^ (n + 1) := h4
        _ ≤ 2 ^ (m + 1 + n) := Nat.pow_le_pow_right (by norm_num) (by omega)
      rcases Nat.mod_two_eq_zero_or_one x with hxx | hxx
      · rw [hb]
        simp only [hxx]
        norm_num
      · rw [hb]
        simp only [hxx, if_pos]
        exact hyb
    have h2p1 : 2 ^ (m + 1 + n) ≤ 2 * p := by
      calc 2 ^ (m + 1 + n) = 2 * 2 ^ (m + n) := by ring
      _ ≤ 2 * p := by omega
    have h2p2 : 2 * p < 2 ^ (m + 1 + n + 1) := by
      calc 2 * p < 2 * 2 ^ (m + n + 1) := by omega
      _ = 2 ^ (m + 1 + n + 1) := by ring
    constructor
    · apply ge_of_testBit_true
      rw [Nat.testBit_xor, testBit_false_of_lt hblt, testBit_of_interval h2p1 h2p2]
      rfl
    · exact Nat.xor_lt_two_pow (lt_trans hblt (Nat.pow_lt_pow_succ (by norm_num))) h2p2

/-! ## Theorems: congruence modulo the generator -/

theorem pequiv_refl (a : Nat) : pequiv a a :=
  ⟨0, by rw [Nat.xor_self, pmul_zero_left]⟩

theorem pequiv_symm {a b : Nat} (h : pequiv a b) : pequiv b a := by
  obtain ⟨q, hq⟩ := h
  exact ⟨q, by rw [Nat.xor_comm]; exact hq⟩

theorem pequiv_trans {a b c : Nat} (h1 : pequiv a b) (h2 : pequiv b c) : pequiv a c := by
  obtain ⟨q1, hq1⟩ := h1
  obtain ⟨q2, hq2⟩ := h2
  refine ⟨q1 ^^^ q2, ?_⟩
  rw [pmul_xor_left, ← hq1, ← hq2]
  rw [Nat.xor_assoc, ← Nat.xor_assoc b b c, Nat.xor_self, Nat.zero_xor]

theorem pequiv_xor_compat {a b : Nat} (c : Nat) (h : pequiv a b) :
    pequiv (a ^^^ c) (b ^^^ c) := by
  obtain ⟨q, hq⟩ := h
  refine ⟨q, ?_⟩
  rw [← hq]
  rw [Nat.xor_assoc, xor_left_comm c b c, Nat.xor_self, Nat.xor_zero]

theorem pequiv_xor_congr {a b c d : Nat} (h1 : pequiv a b) (h2 : pequiv c d) :
    pequiv (a ^^^ c) (b ^^^ d) := by
  obtain ⟨q1, hq1⟩ := h1
  obtain ⟨q2, hq2⟩ := h2
  refine ⟨q1 ^^^ q2, ?_⟩
  rw [pmul_xor_left, ← hq1, ← hq2]
  rw [Nat.xor_assoc, xor_left_comm c b d, ← Nat.xor_assoc]

theorem pequiv_pmul_left {a b : Nat} (c : Nat) (h : pequiv a b) :
    pequiv (pmul c a) (pmul c b) := by
  obtain ⟨q, hq⟩ := h
  refine ⟨pmul c q, ?_⟩
  rw [← pmul_xor_right, hq, ← pmul_assoc]

theorem pequiv_pmul_right {a b : Nat} (c : Nat) (h : pequiv a b) :
    pequiv (pmul a c) (pmul b c) := by
  rw [pmul_comm a c, pmul_comm b c]
  exact pequiv_pmul_left c h

theorem POLYNOMIAL_bounds : 2 ^ 32 ≤ POLYNOMIAL ∧ POLYNOMIAL < 2 ^ 33 := by decide

/-- Two 32-bit values congruent modulo the 33-bit generator are equal. -/
theorem pequiv_eq {a b : Nat} (h : pequiv a b) (ha : a < 2 ^ 32) (hb : b < 2 ^ 32) :
    a = b := by
  obtain ⟨q, hq⟩ := h
  rcases eq_or_ne q 0 with h0 | h0
  · rw [h0, pmul_zero_left] at hq
    exact Nat.xor_eq_zero.mp hq
  · exfalso
    have hxlt : a ^^^ b < 2 ^ 32 := Nat.xor_lt_two_pow ha hb
    have hqlo := Nat.log2_self_le h0
    have hqhi := Nat.lt_log2_self (n := q)
    have := (pmul_bounds (Nat.log2 q) q POLYNOMIAL 32 hqlo hqhi
      POLYNOMIAL_bounds.1 POLYNOMIAL_bounds.2).1
    rw [← hq] at this
    have h32 : (2 : Nat) ^ 32 ≤ 2 ^ (Nat.log2 q + 32) :=
      Nat.pow_le_pow_right (by norm_num) (by omega)
    omega

/-! ## Theorems: bit_length and the division loop -/

theorem bitLengthGo_zero (fuel : Nat) : bitLengthGo fuel 0 = 0 := by
  cases fuel with
  | zero => rfl
  | succ f => simp [bitLengthGo]

theorem bitLengthGo_spec : ∀ fuel n, n ≠ 0 → n < 2 ^ fuel →
    2 ^ (bitLengthGo fuel n - 1) ≤ n ∧ n < 2 ^ bitLengthGo fuel n := by
  intro fuel
  induction fuel with
  | zero =>
    intro n h0 h1
    norm_num at h1
    omega
  | succ f ih =>
    intro n h0 h1
    have hstep : bitLengthGo (f + 1) n = bitLengthGo f (n >>> 1) + 1 := by
      simp [bitLengthGo, h0]
    rw [hstep, Nat.shiftRight_one]
    rcases Nat.lt_or_ge n 2 with hn2 | hn2
    · have hn1 : n = 1 := by omega
      rw [hn1]
      norm_num [bitLengthGo_zero]
    · have hhalf0 : n / 2 ≠ 0 := by omega
      have hhalf1 : n / 2 < 2 ^ f := by
        apply Nat.div_lt_of_lt_mul
        rw [pow_succ] at h1
        omega
      obtain ⟨hlo, hhi⟩ := ih (n / 2) hhalf0 hhalf1
      set b := bitLengthGo f (n / 2) with hbdef
      have hbpos : b ≠ 0 := by
        intro hb
        rw [hb] at hhi
        norm_num at hhi
        omega
      have he1 : 2 ^ b = 2 * 2 ^ (b - 1) := by
        rw [← pow_succ']
        congr 1
        omega
      have he2 : 2 ^ (b + 1 - 1) = 2 ^ b := by congr 1
      have he3 : 2 ^ (b + 1) = 2 * 2 ^ b := by rw [← pow_succ']
      have hdm := Nat.div_add_mod n 2
      refine ⟨?_, ?_⟩
      · rw [he2, he1]
        omega
      · rw [he3]
        omega

theorem bit_length_spec {n : Nat} (h0 : n ≠ 0) (h64 : n < 2 ^ 64) :
    2 ^ (bit_length n - 1) ≤ n ∧ n < 2 ^ bit_length n :=
  bitLengthGo_spec 64 n h0 h64

theorem bit_length_pos {n : Nat} (h0 : n ≠ 0) (h64 : n < 2 ^ 64) : bit_length n ≠ 0 := by
  intro h
  have h2 := (bit_length_spec h0 h64).2
  rw [h] at h2
  norm_num at h2
  omega

theorem or_two_pow_eq_xor (a n : Nat) (h : a.testBit n = false) :
    a ||| 2 ^ n = a ^^^ 2 ^ n := by
  apply Nat.eq_of_testBit_eq
  intro i
  rw [Nat.testBit_or, Nat.testBit_xor, Nat.testBit_two_pow]
  rcases eq_or_ne n i with rfl | hne
  · simp [h]
  · simp [hne]

theorem divideGo_spec (y ydeg : Nat) (hy1 : 2 ^ ydeg ≤ y) (hy2 : y < 2 ^ (ydeg + 1)) :
    ∀ n x z, x < 2 ^ (n + ydeg) → (∀ i, i < n → z.testBit i = false) →
      pmul (divideGo y ydeg n x z).1 y ^^^ (divideGo y ydeg n x z).2 = pmul z y ^^^ x ∧
      (divideGo y ydeg n x z).2 < 2 ^ ydeg ∧
      (divideGo y ydeg n x z).1 ^^^ z < 2 ^ n := by
  intro n
  induction n with
  | zero =>
    intro x z hx hz
    refine ⟨rfl, by simpa using hx, ?_⟩
    simp [divideGo, Nat.xor_self, Nat.one_pos]
  | succ n ih =>
    intro x z hx hz
    have hxe : x < 2 ^ (n + ydeg + 1) := by
      have : n + 1 + ydeg = n + ydeg + 1 := by omega
      rwa [this] at hx
    by_cases hg : (x >>> (n + ydeg)) &&& 1 ≠ 0
    · have hunfold : divideGo y ydeg (n + 1) x z =
          if (x >>> (n + ydeg)) &&& 1 ≠ 0 then
            divideGo y ydeg n (x ^^^ (y <<< n)) (z ||| (1 <<< n))
          else divideGo y ydeg n x z := rfl
      have hstep : divideGo y ydeg (n + 1) x z =
          divideGo y ydeg n (x ^^^ (y <<< n)) (z ||| (1 <<< n)) := by
        rw [hunfold, if_pos hg]
      have hbit : x.testBit (n + ydeg) = true := (testBit_of_shift x (n + ydeg)).mp hg
      have hylt : y <<< n < 2 ^ (n + ydeg + 1) := by
        rw [Nat.shiftLeft_eq]
        calc y * 2 ^ n < 2 ^ (ydeg + 1) * 2 ^ n := by
              exact (Nat.mul_lt_mul_right (Nat.two_pow_pos n)).mpr hy2
        _ = 2 ^ (n + ydeg + 1) := by rw [← pow_add]; congr 1; omega
      have hybit : (y <<< n).testBit (n + ydeg) = true := by
        rw [Nat.testBit_shiftLeft]
        have hge : n + ydeg ≥ n := by omega
        have hsub : n + ydeg - n = ydeg := by omega
        simp [hge, hsub, testBit_of_interval hy1 hy2]
      have hx'lt : x ^^^ (y <<< n) < 2 ^ (n + ydeg) := by
        apply lt_of_testBit_false (Nat.xor_lt_two_pow hxe hylt)
        rw [Nat.testBit_xor, hbit, hybit]
        rfl
      have hzbitn : z.testBit n = false := hz n (by omega)
      have hz' : z ||| (1 <<< n) = z ^^^ 2 ^ n := by
        rw [Nat.one_shiftLeft]
        exact or_two_pow_eq_xor z n hzbitn
      have hz'inv : ∀ i, i < n → (z ||| (1 <<< n)).testBit i = false := by
        intro i hi
        rw [hz', Nat.testBit_xor, hz i (by omega), Nat.testBit_two_pow]
        have : n ≠ i := by omega
        simp [this]
      obtain ⟨ha, hb, hc⟩ := ih (x ^^^ (y <<< n)) (z ||| (1 <<< n)) hx'lt hz'inv
      rw [hstep]
      refine ⟨?_, hb, ?_⟩
      · rw [ha, hz', pmul_xor_left, pmul_two_pow_left, Nat.mul_comm (2 ^ n) y,
          ← Nat.shiftLeft_eq, Nat.xor_assoc, xor_left_comm (y <<< n) x (y <<< n),
          Nat.xor_self, Nat.xor_zero]
      · have hzz : (divideGo y ydeg n (x ^^^ (y <<< n)) (z ||| (1 <<< n))).1 ^^^ z =
            ((divideGo y ydeg n (x ^^^ (y <<< n)) (z ||| (1 <<< n))).1 ^^^
              (z ||| (1 <<< n))) ^^^ 2 ^ n := by
          rw [hz', Nat.xor_assoc, Nat.xor_assoc, Nat.xor_self, Nat.xor_zero]
        rw [hzz]
        exact Nat.xor_lt_two_pow (lt_trans hc (Nat.pow_lt_pow_succ (by norm_num)))
          (Nat.pow_lt_pow_succ (by norm_num))
    · have hunfold : divideGo y ydeg (n + 1) x z =
          if (x >>> (n + ydeg)) &&& 1 ≠ 0 then
            divideGo y ydeg n (x ^^^ (y <<< n)) (z ||| (1 <<< n))
          else divideGo y ydeg n x z := rfl
      have hstep : divideGo y ydeg (n + 1) x z = divideGo y ydeg n x z := by
        rw [hunfold, if_neg hg]
      have hbitf : x.testBit (n + ydeg) = false := by
        rcases Bool.eq_false_or_eq_true (x.testBit (n + ydeg)) with ht | hf
        · exact absurd ((testBit_of_shift x (n + ydeg)).mpr ht) hg
        · exact hf
      have hxlt : x < 2 ^ (n + ydeg) := lt_of_testBit_false hxe hbitf
      obtain ⟨ha, hb, hc⟩ := ih x z hxlt (fun i hi => hz i (by omega))
      rw [hstep]
      exact ⟨ha, hb, lt_trans hc (Nat.pow_lt_pow_succ (by norm_num))⟩

/-- Correctness of `divide_and_remainder`: the Euclidean identity over
the carry-less product, the remainder degree bound, and the quotient
size bound. -/
theorem divide_and_remainder_spec {a b q r : Nat} (hb : b ≠ 0)
    (ha64 : a < 2 ^ 64) (hb64 : b < 2 ^ 64)
    (h : divide_and_remainder a b = .ok (q, r)) :
    pmul q b ^^^ r = a ∧ r < 2 ^ (bit_length b - 1) ∧
      q < 2 ^ (bit_length a - bit_length b + 1) := by
  rcases eq_or_ne a 0 with ha | ha
  · rw [divide_and_remainder, if_neg hb, if_pos ha] at h
    cases h
    exact ⟨by rw [pmul_zero_left, Nat.zero_xor, ha], Nat.two_pow_pos _, Nat.two_pow_pos _⟩
  · obtain ⟨hblo, hbhi⟩ := bit_length_spec hb hb64
    obtain ⟨halo, hahi⟩ := bit_length_spec ha ha64
    have hbpos := bit_length_pos hb hb64
    have hapos := bit_length_pos ha ha64
    have hbint1 : 2 ^ (bit_length b - 1) ≤ b := hblo
    have hbint2 : b < 2 ^ (bit_length b - 1 + 1) := by
      have he : bit_length b - 1 + 1 = bit_length b := by omega
      rwa [he]
    rw [divide_and_remainder, if_neg hb, if_neg ha] at h
    by_cases hlt : bit_length a - 1 < bit_length b - 1
    · rw [if_pos hlt] at h
      cases h
      refine ⟨by rw [pmul_zero_left, Nat.zero_xor], ?_, Nat.two_pow_pos _⟩
      calc a < 2 ^ bit_length a := hahi
      _ ≤ 2 ^ (bit_length b - 1) := Nat.pow_le_pow_right (by norm_num) (by omega)
    · rw [if_neg hlt] at h
      set n := (bit_length a - 1) - (bit_length b - 1) + 1 with hn
      have hna : n + (bit_length b - 1) = bit_length a := by omega
      have hx : a < 2 ^ (n + (bit_length b - 1)) := by rwa [hna]
      have hzinv : ∀ i, i < n → Nat.testBit 0 i = false := fun i _ => Nat.zero_testBit i
      obtain ⟨hid, hrem, hquo⟩ :=
        divideGo_spec b (bit_length b - 1) hbint1 hbint2 n a 0 hx hzinv
      have h2 : divideGo b (bit_length b - 1) n a 0 = (q, r) := by
        injection h
      have hq : (divideGo b (bit_length b - 1) n a 0).1 = q := by rw [h2]
      have hr : (divideGo b (bit_length b - 1) n a 0).2 = r := by rw [h2]
      rw [hq, hr, pmul_zero_left, Nat.zero_xor] at hid
      rw [hr] at hrem
      rw [hq, Nat.xor_zero] at hquo
      refine ⟨hid, hrem, ?_⟩
      have hne : n = bit_length a - bit_length b + 1 := by omega
      rwa [hne] at hquo

/-! ## Theorems: multiply_mod as reduced carry-less product -/

theorem multiplyModGo_spec : ∀ fuel y x z, y < 2 ^ fuel → x < 2 ^ 32 → z < 2 ^ 32 →
    multiplyModGo fuel x y z < 2 ^ 32 ∧
      pequiv (multiplyModGo fuel x y z) (z ^^^ pmul y x) := by
  intro fuel
  induction fuel with
  | zero =>
    intro y x z hy hx hz
    have hy0 : y = 0 := by norm_num at hy; omega
    subst hy0
    rw [show multiplyModGo 0 x 0 z = z from rfl, pmul_zero_left, Nat.xor_zero]
    exact ⟨hz, pequiv_refl z⟩
  | succ fuel ih =>
    intro y x z hy hx hz
    rcases eq_or_ne y 0 with hy0 | hy0
    · subst hy0
      rw [show multiplyModGo (fuel + 1) x 0 z = z from rfl, pmul_zero_left, Nat.xor_zero]
      exact ⟨hz, pequiv_refl z⟩
    · have hunfold : multiplyModGo (fuel + 1) x y z =
          multiplyModGo fuel
            (if ((x <<< 1) >>> 32) &&& 1 ≠ 0 then (x <<< 1) ^^^ POLYNOMIAL else x <<< 1)
            (y >>> 1) (z ^^^ x * (y &&& 1)) := by
        rw [show multiplyModGo (fuel + 1) x y z =
          if y = 0 then z else
            multiplyModGo fuel
              (if ((x <<< 1) >>> 32) &&& 1 ≠ 0 then (x <<< 1) ^^^ POLYNOMIAL else x <<< 1)
              (y >>> 1) (z ^^^ x * (y &&& 1)) from rfl, if_neg hy0]
      set x2 := if ((x <<< 1) >>> 32) &&& 1 ≠ 0 then (x <<< 1) ^^^ POLYNOMIAL else x <<< 1
        with hx2def
      set z1 := z ^^^ x * (y &&& 1) with hz1def
      have hxx : x <<< 1 = 2 * x := by rw [Nat.shiftLeft_eq]; ring
      have hx1lt : x <<< 1 < 2 ^ 33 := by
        rw [hxx, pow_succ]
        omega
      have hx2lt : x2 < 2 ^ 32 := by
        rw [hx2def]
        by_cases hgg : ((x <<< 1) >>> 32) &&& 1 ≠ 0
        · rw [if_pos hgg]
          apply lt_of_testBit_false (Nat.xor_lt_two_pow hx1lt (by norm_num [POLYNOMIAL]))
          rw [Nat.testBit_xor, (testBit_of_shift (x <<< 1) 32).mp hgg]
          have hp32 : POLYNOMIAL.testBit 32 = true := by decide
          rw [hp32]
          rfl
        · rw [if_neg hgg]
          apply lt_of_testBit_false hx1lt
          rcases Bool.eq_false_or_eq_true ((x <<< 1).testBit 32) with ht | hf
          · exact absurd ((testBit_of_shift (x <<< 1) 32).mpr ht) hgg
          · exact hf
      have hx2equiv : pequiv x2 (2 * x) := by
        rw [hx2def]
        by_cases hgg : ((x <<< 1) >>> 32) &&& 1 ≠ 0
        · rw [if_pos hgg, hxx]
          refine ⟨1, ?_⟩
          rw [pmul_one_left]
          rw [Nat.xor_comm (2 * x ^^^ POLYNOMIAL) (2 * x), ← Nat.xor_assoc,
            Nat.xor_self, Nat.zero_xor]
        · rw [if_neg hgg, hxx]
          exact pequiv_refl _
      have hz1lt : z1 < 2 ^ 32 := by
        rw [hz1def, Nat.and_one_is_mod]
        rcases Nat.mod_two_eq_zero_or_one y with hm | hm
        · rw [hm]
          simpa using hz
        · rw [hm]
          simpa using Nat.xor_lt_two_pow hz hx
      have hyh : y >>> 1 < 2 ^ fuel := by
        rw [Nat.shiftRight_one]
        apply Nat.div_lt_of_lt_mul
        rw [pow_succ] at hy
        omega
      obtain ⟨hlt, hequiv⟩ := ih (y >>> 1) x2 z1 hyh hx2lt hz1lt
      rw [hunfold]
      refine ⟨hlt, ?_⟩
      apply pequiv_trans hequiv
      apply pequiv_trans (pequiv_xor_congr (pequiv_refl z1) (pequiv_pmul_left (y >>> 1) hx2equiv))
      rw [Nat.shiftRight_one]
      have hsplit : pmul y x = (if y % 2 = 1 then x else 0) ^^^ 2 * pmul (y / 2) x := by
        rw [← pmul_ne_zero_def hy0]
      have hmul2 : pmul (y / 2) (2 * x) = 2 * pmul (y / 2) x := pmul_two_right (y / 2) x
      rw [hmul2, hz1def, Nat.and_one_is_mod]
      have hxb : x * (y % 2) = if y % 2 = 1 then x else 0 := by
        rcases Nat.mod_two_eq_zero_or_one y with hm | hm <;> simp [hm]
      rw [hxb, hsplit, Nat.xor_assoc]
      exact pequiv_refl _

/-- `multiply_mod x y` is a 32-bit value congruent to the carry-less
product, for every 32-bit `x` (and `y` below the loop budget). -/
theorem multiply_mod_spec {x y : Nat} (hx : x < 2 ^ 32) (hy : y < 2 ^ 64) :
    multiply_mod x y < 2 ^ 32 ∧ pequiv (multiply_mod x y) (pmul y x) := by
  obtain ⟨h1, h2⟩ := multiplyModGo_spec 64 y x 0 hy hx (Nat.two_pow_pos 32)
  rw [Nat.zero_xor] at h2
  exact ⟨h1, h2⟩

theorem bit_length_le_32 {v : Nat} (hv : v < 2 ^ 32) : bit_length v ≤ 32 := by
  rcases eq_or_ne v 0 with h0 | h0
  · rw [h0]
    rw [show bit_length 0 = 0 from bitLengthGo_zero 64]
    omega
  · have hspec := bit_length_spec h0 (lt_trans hv (by norm_num))
    have := lt_of_le_of_lt hspec.1 hv
    have hlt : bit_length v - 1 < 32 := by
      by_contra hge
      push_neg at hge
      have : (2 : Nat) ^ 32 ≤ 2 ^ (bit_length v - 1) :=
        Nat.pow_le_pow_right (by norm_num) hge
      omega
    omega

theorem log2_lt_of_lt_pow {q K : Nat} (hq : q ≠ 0) (h : q < 2 ^ K) : Nat.log2 q < K := by
  have hlo := Nat.log2_self_le hq
  by_contra hge
  push_neg at hge
  have : (2 : Nat) ^ K ≤ 2 ^ Nat.log2 q := Nat.pow_le_pow_right (by norm_num) hge
  omega

/-- `multiply_mod q b` coincides with the plain carry-less product
whenever that product fits in 32 bits. -/
theorem multiply_mod_eq_pmul {q b : Nat} (hq : q < 2 ^ 32) (hb : b < 2 ^ 64)
    (hfit : pmul q b < 2 ^ 32) : multiply_mod q b = pmul q b := by
  obtain ⟨hlt, hequiv⟩ := multiply_mod_spec hq hb
  apply pequiv_eq _ hlt hfit
  apply pequiv_trans hequiv
  rw [pmul_comm]
  exact pequiv_refl _

/-- C4 (amended to 32-bit operands, as the counterexample
`C4_counterexample` forces): for all GF(2) polynomials `a`, `b` below
`2 ^ 32` with `b` nonzero, `divide_and_remainder` returns a quotient and
remainder with `degree r < degree b` (`r < 2 ^ (bit_length b - 1)`) and
`a = multiplyMod(q, b) XOR r`; and `multiply_mod` is associative and
distributes over XOR on both sides for 32-bit operands. -/
theorem C4_crc_engine_algebra :
    (∀ a b q r, b ≠ 0 → a < 2 ^ 32 → b < 2 ^ 32 →
        divide_and_remainder a b = .ok (q, r) →
        a = multiply_mod q b ^^^ r ∧ r < 2 ^ (bit_length b - 1)) ∧
    (∀ a b c, a < 2 ^ 32 → b < 2 ^ 32 → c < 2 ^ 32 →
        multiply_mod (multiply_mod a b) c = multiply_mod a (multiply_mod b c)) ∧
    (∀ a b c, a < 2 ^ 32 → b < 2 ^ 32 → c < 2 ^ 32 →
        multiply_mod a (b ^^^ c) = multiply_mod a b ^^^ multiply_mod a c ∧
        multiply_mod (a ^^^ b) c = multiply_mod a c ^^^ multiply_mod b c) := by
  have h64 : (2 : Nat) ^ 32 < 2 ^ 64 := by norm_num
  refine ⟨?_, ?_, ?_⟩
  · intro a b q r hb ha32 hb32 h
    obtain ⟨hid, hrem, hquo⟩ :=
      divide_and_remainder_spec hb (lt_trans ha32 h64) (lt_trans hb32 h64) h
    have hbl_a := bit_length_le_32 ha32
    have hbl_b := bit_length_le_32 hb32
    have hbl_b_pos : bit_length b ≠ 0 := bit_length_pos hb (lt_trans hb32 h64)
    have hq32 : q < 2 ^ 32 := by
      apply lt_of_lt_of_le hquo
      apply Nat.pow_le_pow_right (by norm_num)
      omega
    have hfit : pmul q b < 2 ^ 32 := by
      rcases eq_or_ne q 0 with h0 | h0
      · rw [h0, pmul_zero_left]
        exact Nat.two_pow_pos 32
      · have hm0 := Nat.log2_self_le h0
        have hmlt : Nat.log2 q < bit_length a - bit_length b + 1 := log2_lt_of_lt_pow h0 hquo
        have hnlt : Nat.log2 b < bit_length b := by
          apply log2_lt_of_lt_pow hb
          exact (bit_length_spec hb (lt_trans hb32 h64)).2
        have hup := (pmul_bounds (Nat.log2 q) q b (Nat.log2 b) (Nat.log2_self_le h0)
          (Nat.lt_log2_self) (Nat.log2_self_le hb) (Nat.lt_log2_self)).2
        apply lt_of_lt_of_le hup
        apply Nat.pow_le_pow_right (by norm_num)
        omega
    rw [multiply_mod_eq_pmul hq32 (lt_trans hb32 h64) hfit]
    exact ⟨by rw [hid], hrem⟩
  · intro a b c ha hb hc
    obtain ⟨hab_lt, hab_eq⟩ := multiply_mod_spec ha (lt_trans hb h64)
    obtain ⟨hbc_lt, hbc_eq⟩ := multiply_mod_spec hb (lt_trans hc h64)
    obtain ⟨habc1_lt, habc1_eq⟩ := multiply_mod_spec hab_lt (lt_trans hc h64)
    obtain ⟨habc2_lt, habc2_eq⟩ := multiply_mod_spec ha (lt_trans hbc_lt h64)
    apply pequiv_eq _ habc1_lt habc2_lt
    apply pequiv_trans habc1_eq
    apply pequiv_symm
    apply pequiv_trans habc2_eq
    apply pequiv_trans (pequiv_pmul_right a hbc_eq)
    apply pequiv_symm
    apply pequiv_trans (pequiv_pmul_left c hab_eq)
    rw [show pmul c (pmul b a) = pmul (pmul c b) a from (pmul_assoc c b a).symm]
    exact pequiv_refl _
  · intro a b c ha hb hc
    have hbc64 : b ^^^ c < 2 ^ 64 := lt_trans (Nat.xor_lt_two_pow hb hc) h64
    have hab32 : a ^^^ b < 2 ^ 32 := Nat.xor_lt_two_pow ha hb
    constructor
    · obtain ⟨h1_lt, h1_eq⟩ := multiply_mod_spec ha hbc64
      obtain ⟨h2_lt, h2_eq⟩ := multiply_mod_spec ha (lt_trans hb h64)
      obtain ⟨h3_lt, h3_eq⟩ := multiply_mod_spec ha (lt_trans hc h64)
      apply pequiv_eq _ h1_lt (Nat.xor_lt_two_pow h2_lt h3_lt)
      apply pequiv_trans h1_eq
      rw [pmul_xor_left]
      apply pequiv_symm
      exact pequiv_xor_congr h2_eq h3_eq
    · obtain ⟨h1_lt, h1_eq⟩ := multiply_mod_spec hab32 (lt_trans hc h64)
      obtain ⟨h2_lt, h2_eq⟩ := multiply_mod_spec ha (lt_trans hc h64)
      obtain ⟨h3_lt, h3_eq⟩ := multiply_mod_spec hb (lt_trans hc h64)
      apply pequiv_eq _ h1_lt (Nat.xor_lt_two_pow h2_lt h3_lt)
      apply pequiv_trans h1_eq
      rw [pmul_xor_right]
      apply pequiv_symm
      exact pequiv_xor_congr h2_eq h3_eq

/-- C4 counterexample: for `a = 2 ^ 32` (a legal Python unsigned
integer) and `b = 3`, the division succeeds but
`multiplyMod(quotient, b) XOR remainder` differs from `a`, because
`multiply_mod` reduces the 33-bit product modulo the generator.  The
claim's unrestricted quantification over unsigned integers is
therefore false. -/
theorem C4_counterexample :
    divide_and_remainder (2 ^ 32) 3 = .ok (4294967295, 1) ∧
      multiply_mod 4294967295 3 ^^^ 1 ≠ 2 ^ 32 := by
  refine ⟨rfl, by decide⟩

/-- C4 witness: the amended theorem applied at concrete inputs. -/
theorem C4_witness :
    (7 = multiply_mod 2 3 ^^^ 1 ∧ 1 < 2 ^ (bit_length 3 - 1)) ∧
    multiply_mod (multiply_mod 5 7) 9 = multiply_mod 5 (multiply_mod 7 9) ∧
    (multiply_mod 5 (7 ^^^ 9) = multiply_mod 5 7 ^^^ multiply_mod 5 9 ∧
      multiply_mod (5 ^^^ 7) 9 = multiply_mod 5 9 ^^^ multiply_mod 7 9) :=
  ⟨C4_crc_engine_algebra.1 7 3 2 1 (by decide) (by decide) (by decide) rfl,
   C4_crc_engine_algebra.2.1 5 7 9 (by decide) (by decide) (by decide),
   C4_crc_engine_algebra.2.2 5 7 9 (by decide) (by decide) (by decide)⟩

/-! ## Theorems: UTF-8 decode toolkit -/

theorem isValidChar_of_bounds {n : Nat}
    (h : n < 0xD800 ∨ (0xE000 ≤ n ∧ n < 0x110000)) : n.isValidChar := by
  unfold Nat.isValidChar
  omega

theorem toNat_ofNat_valid {n : Nat} (h : n.isValidChar) : (Char.ofNat n).toNat = n := by
  unfold Char.ofNat
  rw [dif_pos h]
  rfl


theorem utf8Head_ascii {b : Nat} (rest : List Nat) (h : b < 0x80) :
    utf8Head b rest = some (b, rest) := by
  unfold utf8Head
  rw [if_pos h]

/-- Inversion for a successful `utf8Head` step: the four sequence
shapes, with their guards, their code point, and the remaining bytes. -/
theorem utf8Head_some_inv {b : Nat} {rest rest' : List Nat} {code : Nat}
    (h : utf8Head b rest = some (code, rest')) :
    (b < 0x80 ∧ code = b ∧ rest' = rest) ∨
    (∃ b1, rest = b1 :: rest' ∧ code = (b - 0xC0) * 0x40 + (b1 - 0x80) ∧
      (0xC2 ≤ b ∧ b ≤ 0xDF) ∧ (0x80 ≤ b1 ∧ b1 ≤ 0xBF)) ∨
    (∃ b1 b2, rest = b1 :: b2 :: rest' ∧
      code = (b - 0xE0) * 0x1000 + (b1 - 0x80) * 0x40 + (b2 - 0x80) ∧
      (0xE0 ≤ b ∧ b ≤ 0xEF) ∧ (0x80 ≤ b1 ∧ b1 ≤ 0xBF) ∧ (0x80 ≤ b2 ∧ b2 ≤ 0xBF) ∧
      (b = 0xE0 → 0xA0 ≤ b1) ∧ (b = 0xED → b1 ≤ 0x9F)) ∨
    (∃ b1 b2 b3, rest = b1 :: b2 :: b3 :: rest' ∧
      code = (b - 0xF0) * 0x40000 + (b1 - 0x80) * 0x1000 + (b2 - 0x80) * 0x40 + (b3 - 0x80) ∧
      (0xF0 ≤ b ∧ b ≤ 0xF4) ∧ (0x80 ≤ b1 ∧ b1 ≤ 0xBF) ∧ (0x80 ≤ b2 ∧ b2 ≤ 0xBF) ∧
      (0x80 ≤ b3 ∧ b3 ≤ 0xBF) ∧ (b = 0xF0 → 0x90 ≤ b1) ∧ (b = 0xF4 → b1 ≤ 0x8F)) := by
  unfold utf8Head at h
  split_ifs at h with h1 h2 h3 h4
  · cases h
    exact Or.inl ⟨h1, rfl, rfl⟩
  · rcases rest with _ | ⟨b1, rest1⟩
    · cases h
    · dsimp only at h
      split_ifs at h with hb1
      cases h
      exact Or.inr (Or.inl ⟨b1, rfl, rfl, h2, hb1⟩)
  · rcases rest with _ | ⟨b1, _ | ⟨b2, rest2⟩⟩
    · cases h
    · cases h
    · dsimp only at h
      split_ifs at h with hb1
      cases h
      exact Or.inr (Or.inr (Or.inl ⟨b1, b2, rfl, rfl, h3, hb1.1, hb1.2.1, hb1.2.2.1,
        hb1.2.2.2⟩))
  · rcases rest with _ | ⟨b1, _ | ⟨b2, _ | ⟨b3, rest3⟩⟩⟩
    · cases h
    · cases h
    · cases h
    · dsimp only at h
      split_ifs at h with hb1
      cases h
      exact Or.inr (Or.inr (Or.inr ⟨b1, b2, b3, rfl, rfl, h4, hb1.1, hb1.2.1, hb1.2.2.1,
        hb1.2.2.2.1, hb1.2.2.2.2⟩))

/-- A successful head step consumes at least the lead byte. -/
theorem utf8Head_length {b : Nat} {rest rest' : List Nat} {code : Nat}
    (h : utf8Head b rest = some (code, rest')) : rest'.length ≤ rest.length := by
  rcases utf8Head_some_inv h with ⟨_, _, rfl⟩ | ⟨b1, hr, _⟩ | ⟨b1, b2, hr, _⟩ |
    ⟨b1, b2, b3, hr, _⟩
  · exact le_rfl
  · rw [hr]; simp
  · rw [hr]; simp; omega
  · rw [hr]; simp; omega

/-- A code point produced by `utf8Head` is a valid character code, and
multi-byte sequences give code points of at least `0x80`. -/
theorem utf8Head_code_facts {b : Nat} {rest rest' : List Nat} {code : Nat}
    (h : utf8Head b rest = some (code, rest')) :
    code.isValidChar ∧ (¬ b < 0x80 → 0x80 ≤ code) := by
  rcases utf8Head_some_inv h with ⟨hb, rfl, _⟩ | ⟨b1, _, rfl, hb, hb1⟩ |
    ⟨b1, b2, _, rfl, hb, hb1, hb2, ho, hs⟩ | ⟨b1, b2, b3, _, rfl, hb, hb1, hb2, hb3, ho, hs⟩
  · exact ⟨isValidChar_of_bounds (Or.inl (by omega)), fun hc => absurd hb hc⟩
  · exact ⟨isValidChar_of_bounds (Or.inl (by omega)), fun _ => by omega⟩
  · refine ⟨isValidChar_of_bounds ?_, fun _ => by omega⟩
    rcases eq_or_ne b 0xED with rfl | hne
    · exact Or.inl (by omega)
    · rcases Nat.lt_or_ge b 0xEE with hlt | hge
      · exact Or.inl (by omega)
      · exact Or.inr (by omega)
  · exact ⟨isValidChar_of_bounds (Or.inr (by omega)), fun _ => by omega⟩

theorem decodeUtf8Go_fuel : ∀ f1 f2 bs, bs.length ≤ f1 → bs.length ≤ f2 →
    decodeUtf8Go f1 bs = decodeUtf8Go f2 bs := by
  intro f1
  induction f1 with
  | zero =>
    intro f2 bs h1 h2
    have : bs = [] := by
      cases bs with
      | nil => rfl
      | cons b rest => simp at h1
    rw [this]
    cases f2 <;> rfl
  | succ f1 ih =>
    intro f2 bs h1 h2
    cases bs with
    | nil => cases f2 <;> rfl
    | cons b rest =>
      cases f2 with
      | zero => simp at h2
      | succ f2 =>
        show (match utf8Head b rest with
          | some (code, rest') =>
            match decodeUtf8Go f1 rest' with
            | some cs => some (Char.ofNat code :: cs)
            | none => none
          | none => none) =
          (match utf8Head b rest with
          | some (code, rest') =>
            match decodeUtf8Go f2 rest' with
            | some cs => some (Char.ofNat code :: cs)
            | none => none
          | none => none)
        rcases hh : utf8Head b rest with _ | ⟨code, rest'⟩
        · rfl
        · have hlen := utf8Head_length hh
          simp only []
          rw [ih f2 rest' (by simp at h1; omega) (by simp at h2; omega)]

/-- Unfolding `decodeUtf8` one head sequence at a time. -/
theorem decodeUtf8_cons {b : Nat} (rest : List Nat) :
    decodeUtf8 (b :: rest) =
      match utf8Head b rest with
      | some (code, rest') =>
        match decodeUtf8 rest' with
        | some cs => some (Char.ofNat code :: cs)
        | none => none
      | none => none := by
  show decodeUtf8Go (rest.length + 1) (b :: rest) = _
  rcases hh : utf8Head b rest with _ | ⟨code, rest'⟩
  · show (match utf8Head b rest with
      | some (code, rest') =>
        match decodeUtf8Go rest.length rest' with
        | some cs => some (Char.ofNat code :: cs)
        | none => none
      | none => none) = _
    rw [hh]
  · have hlen := utf8Head_length hh
    show (match utf8Head b rest with
      | some (code, rest') =>
        match decodeUtf8Go rest.length rest' with
        | some cs => some (Char.ofNat code :: cs)
        | none => none
      | none => none) = _
    rw [hh]
    simp only []
    rw [decodeUtf8Go_fuel rest.length rest'.length rest' hlen le_rfl]
    rfl

theorem decodeUtf8_nil : decodeUtf8 [] = some [] := rfl

/-- An ASCII byte decodes to itself in front of the rest. -/
theorem decodeUtf8_ascii_cons {b : Nat} (rest : List Nat) (h : b < 0x80) :
    decodeUtf8 (b :: rest) = (decodeUtf8 rest).map (fun cs => Char.ofNat b :: cs) := by
  rw [decodeUtf8_cons, utf8Head_ascii rest h]
  dsimp only
  cases decodeUtf8 rest <;> rfl

theorem decodeUtf8_length_le : ∀ bs cs, decodeUtf8 bs = some cs → cs.length ≤ bs.length := by
  suffices H : ∀ n bs cs, bs.length ≤ n → decodeUtf8 bs = some cs → cs.length ≤ bs.length by
    exact fun bs cs h => H bs.length bs cs le_rfl h
  intro n
  induction n with
  | zero =>
    intro bs cs hlen h
    have hb : bs = [] := by
      cases bs with
      | nil => rfl
      | cons x xs => simp at hlen
    rw [hb] at h
    cases h
    simp [hb]
  | succ n ih =>
    intro bs cs hlen h
    cases bs with
    | nil =>
      cases h
      simp
    | cons b rest =>
      rw [decodeUtf8_cons] at h
      rcases hh : utf8Head b rest with _ | ⟨code, rest'⟩
      · rw [hh] at h
        cases h
      · rw [hh] at h
        dsimp only at h
        rcases hd : decodeUtf8 rest' with _ | cs'
        · rw [hd] at h
          cases h
        · rw [hd] at h
          cases h
          have hlen' := utf8Head_length hh
          have := ih rest' cs' (by simp at hlen; omega) hd
          simp
          omega

theorem decodeUtf8_ascii_append : ∀ (pre : List Nat), (∀ b ∈ pre, b < 0x80) →
    ∀ tail, decodeUtf8 (pre ++ tail) =
      (decodeUtf8 tail).map (fun cs => pre.map Char.ofNat ++ cs) := by
  intro pre
  induction pre with
  | nil =>
    intro _ tail
    cases hdt : decodeUtf8 tail <;> simp [hdt]
  | cons b pre ih =>
    intro hpre tail
    rw [List.cons_append, decodeUtf8_ascii_cons _ (hpre b (by simp)), ih (fun x hx =>
      hpre x (by simp [hx]))]
    cases hdt : decodeUtf8 tail <;> simp [hdt]

/-- A decode whose characters are all ASCII inverts `Char.toNat`:
the bytes are exactly the character codes. -/
theorem decodeUtf8_ascii_inv : ∀ bs cs, decodeUtf8 bs = some cs →
    (∀ c ∈ cs, c.toNat < 0x80) → bs = cs.map Char.toNat := by
  suffices H : ∀ n bs cs, bs.length ≤ n → decodeUtf8 bs = some cs →
      (∀ c ∈ cs, c.toNat < 0x80) → bs = cs.map Char.toNat by
    exact fun bs cs h hc => H bs.length bs cs le_rfl h hc
  intro n
  induction n with
  | zero =>
    intro bs cs hlen h hc
    have hb : bs = [] := by
      cases bs with
      | nil => rfl
      | cons x xs => simp at hlen
    rw [hb] at h
    cases h
    simp [hb]
  | succ n ih =>
    intro bs cs hlen h hc
    cases bs with
    | nil =>
      cases h
      simp
    | cons b rest =>
      rw [decodeUtf8_cons] at h
      rcases hh : utf8Head b rest with _ | ⟨code, rest'⟩
      · rw [hh] at h
        cases h
      · rw [hh] at h
        dsimp only at h
        rcases hd : decodeUtf8 rest' with _ | cs'
        · rw [hd] at h
          cases h
        · rw [hd] at h
          cases h
          obtain ⟨hvalid, hhigh⟩ := utf8Head_code_facts hh
          have htn : (Char.ofNat code).toNat = code := toNat_ofNat_valid hvalid
          have hcode : code < 0x80 := by
            have := hc (Char.ofNat code) (by simp)
            omega
          have hblow : b < 0x80 := by
            by_contra hbc
            exact absurd (hhigh hbc) (by omega)
          obtain ⟨_, hcb, hrr⟩ : b < 0x80 ∧ code = b ∧ rest' = rest := by
            rcases utf8Head_some_inv hh with hcase | ⟨b1, _, _, hb, _⟩ |
              ⟨b1, b2, _, _, hb, _⟩ | ⟨b1, b2, b3, _, _, hb, _⟩
            · exact hcase
            · omega
            · omega
            · omega
          have hrest := ih rest' cs' (by rw [hrr]; simp at hlen; omega) hd
            (fun c hcmem => hc c (by simp [hcmem]))
          rw [← hrr, hrest, List.map_cons, htn, hcb]

/-- All legal-alphabet characters are ASCII. -/
theorem usable_chars_ascii : ∀ c ∈ USABLE_CHARS.toList, c.toNat < 0x80 := by decide

/-! ## Theorems: the patch step and `modify_string_crc32` -/

theorem take_set_of_le {α : Type} : ∀ (l : List α) (j : Nat) (a : α) (m : Nat), m ≤ j →
    (l.set j a).take m = l.take m := by
  intro l
  induction l with
  | nil => intro j a m _; rfl
  | cons x xs ih =>
    intro j a m hm
    cases j with
    | zero =>
      have : m = 0 := by omega
      rw [this]
      rfl
    | succ j =>
      rw [List.set_cons_succ]
      cases m with
      | zero => rfl
      | succ m =>
        rw [List.take_succ_cons, List.take_succ_cons, ih j a m (by omega)]

theorem pySetXor_ok_inv {l : List Nat} {i : Int} {v : Nat} {l' : List Nat}
    (h : pySetXor l i v = .ok l') :
    ∃ jn : Nat, jn < l.length ∧ l' = l.set jn (l.getD jn 0 ^^^ v) ∧
      (0 ≤ i → (jn : Int) = i) := by
  unfold pySetXor at h
  by_cases hneg : i < 0
  · simp only [if_pos hneg] at h
    split_ifs at h with hc
    cases h
    exact ⟨(i + l.length).toNat, by omega, rfl, fun h0 => by omega⟩
  · simp only [if_neg hneg] at h
    split_ifs at h with hc
    cases h
    exact ⟨i.toNat, by omega, rfl, fun h0 => by omega⟩

theorem patch4_ok_inv {l : List Nat} {offset : Int} {rev : Nat} {l' : List Nat}
    (h : patch4 l offset rev = .ok l') (hoff : offset = (l.length : Int) - 4) :
    l'.length = l.length ∧ ∀ m, m + 4 ≤ l.length → l'.take m = l.take m := by
  unfold patch4 at h
  rcases h1 : pySetXor l (offset + 0) ((rev >>> (0 * 8)) &&& 0xFF) with e1 | l1
  · rw [h1] at h
    cases h
  rw [h1] at h
  dsimp only at h
  rcases h2 : pySetXor l1 (offset + 1) ((rev >>> (1 * 8)) &&& 0xFF) with e2 | l2
  · rw [h2] at h
    cases h
  rw [h2] at h
  dsimp only at h
  rcases h3 : pySetXor l2 (offset + 2) ((rev >>> (2 * 8)) &&& 0xFF) with e3 | l3
  · rw [h3] at h
    cases h
  rw [h3] at h
  dsimp only at h
  rcases h4 : pySetXor l3 (offset + 3) ((rev >>> (3 * 8)) &&& 0xFF) with e4 | l4
  · rw [h4] at h
    cases h
  rw [h4] at h
  dsimp only at h
  cases h
  obtain ⟨j1, hj1lt, hl1, hj1⟩ := pySetXor_ok_inv h1
  obtain ⟨j2, hj2lt, hl2, hj2⟩ := pySetXor_ok_inv h2
  obtain ⟨j3, hj3lt, hl3, hj3⟩ := pySetXor_ok_inv h3
  obtain ⟨j4, hj4lt, hl4, hj4⟩ := pySetXor_ok_inv h4
  have hlen1 : l1.length = l.length := by rw [hl1, List.length_set]
  have hlen2 : l2.length = l1.length := by rw [hl2, List.length_set]
  have hlen3 : l3.length = l2.length := by rw [hl3, List.length_set]
  have hlen4 : l'.length = l3.length := by rw [hl4, List.length_set]
  refine ⟨by omega, ?_⟩
  intro m hm
  have hlen4' : (4 : Int) ≤ l.length := by
    omega
  have hoffpos : 0 ≤ offset := by omega
  have e1 : (j1 : Int) = offset + 0 := hj1 (by omega)
  have e2 : (j2 : Int) = offset + 1 := hj2 (by omega)
  have e3 : (j3 : Int) = offset + 2 := hj3 (by omega)
  have e4 : (j4 : Int) = offset + 3 := hj4 (by omega)
  rw [hl4, take_set_of_le _ _ _ _ (by omega), hl3, take_set_of_le _ _ _ _ (by omega),
    hl2, take_set_of_le _ _ _ _ (by omega), hl1, take_set_of_le _ _ _ _ (by omega)]

/-- Inversion of a successful `modify_string_crc32`: the result passes
the final CRC re-check, has the same length as the ASCII encoding of
the input string, and agrees with it everywhere except possibly the
last four bytes. -/
theorem modify_string_crc32_ok_inv {s : String} {T : Nat} {bs : List Nat}
    (h : modify_string_crc32 s T = .ok bs) :
    crc32 bs = T ∧
    ∃ bytes, encodeAscii s = .ok bytes ∧ bs.length = bytes.length ∧
      (∀ m, m + 4 ≤ bytes.length → bs.take m = bytes.take m) := by
  unfold modify_string_crc32 at h
  rcases he : encodeAscii s with e0 | bytes
  · rw [he] at h
    cases h
  rw [he] at h
  dsimp only at h
  split_ifs at h with hoff
  rcases hr : reciprocal_mod (bytes.length : Int) ((bytes.length : Int) - 4) with er | recip
  · rw [hr] at h
    cases h
  rw [hr] at h
  dsimp only at h
  rcases hp : patch4 bytes ((bytes.length : Int) - 4)
      (reverse32 (multiply_mod recip (reverse32 (crc32 bytes ^^^ T)))) with ep | patched
  · rw [hp] at h
    cases h
  rw [hp] at h
  dsimp only at h
  split_ifs at h with hcrc
  cases h
  obtain ⟨hplen, hptake⟩ := patch4_ok_inv hp rfl
  exact ⟨by omega, bytes, rfl, hplen, hptake⟩



/-- C2: before returning, `modify_string_crc32` recomputes the CRC-32 of
the patched byte string and insists it equal the target, so every byte
string it returns hashes exactly to the target; and an error raised
inside the loop body aborts the whole search immediately — it is never
retried on the next candidate. -/
theorem C2_final_recheck :
    (∀ s T bs, modify_string_crc32 s T = .ok bs → crc32 bs = T) ∧
    (∀ s T e q rest, tryQuad s T q = .error e →
      searchQuads s T (q :: rest) = .error e) := by
  constructor
  · intro s T bs h
    exact (modify_string_crc32_ok_inv h).1
  · intro s T e q rest h
    unfold searchQuads
    rw [h]

theorem C2_final_recheck_witness :
    crc32 ([97, 98] ++ List.replicate 8 48) = 168885360 ∧
    searchQuads "É" 0 [('0', '0', '0', '0')] = .error "ascii encode error" :=
  ⟨C2_final_recheck.1 "ab00000000" 168885360 _ rfl,
   C2_final_recheck.2 "É" 0 "ascii encode error" ('0', '0', '0', '0') [] rfl⟩


/-- `encodeUtf8` on an all-ASCII character list is plain byte extraction. -/
theorem encodeUtf8_ascii : ∀ cs : List Char, (∀ c ∈ cs, c.toNat < 0x80) →
    encodeUtf8 cs = cs.map Char.toNat := by
  intro cs
  induction cs with
  | nil => intro _; rfl
  | cons c rest ih =>
    intro h
    have hc : c.toNat < 0x80 := h c (by simp)
    show (if c.toNat < 0x80 then [c.toNat] else _) ++ encodeUtf8 rest = _
    rw [if_pos hc, ih (fun x hx => h x (by simp [hx]))]
    rfl

/-- Inversion of a successful search: the accepted candidate is one of
the searched quadruples. -/
theorem searchQuads_ok_some {s : String} {T : Nat} {S : List Char} :
    ∀ qs, searchQuads s T qs = .ok (some S) →
      ∃ q ∈ qs, tryQuad s T q = .ok (some S) := by
  intro qs
  induction qs with
  | nil => intro h; cases h
  | cons q rest ih =>
    intro h
    unfold searchQuads at h
    rcases ht : tryQuad s T q with e | (_ | S')
    · rw [ht] at h; cases h
    · rw [ht] at h
      obtain ⟨q', hq', ht'⟩ := ih h
      exact ⟨q', by simp [hq'], ht'⟩
    · rw [ht] at h
      cases h
      exact ⟨q, by simp, ht⟩

/-- Inversion of an accepting loop-body iteration. -/
theorem tryQuad_ok_some {s : String} {T : Nat} {q : Char × Char × Char × Char}
    {S : List Char} (h : tryQuad s T q = .ok (some S)) :
    ∃ bytes, modify_string_crc32 (candidateString s q) T = .ok bytes ∧
      decodeUtf8 bytes = some S ∧
      ∀ c ∈ S.drop (S.length - 4), c ∈ USABLE_CHARS.toList := by
  unfold tryQuad at h
  rcases hm : modify_string_crc32 (candidateString s q) T with e | bytes
  · rw [hm] at h; cases h
  rw [hm] at h
  dsimp only at h
  rcases hd : decodeUtf8 bytes with _ | cs
  · rw [hd] at h; cases h
  rw [hd] at h
  dsimp only at h
  split_ifs at h with hf
  · cases h
  · obtain rfl : cs = S := by
      injection h with hx
      injection hx
    refine ⟨bytes, rfl, hd, ?_⟩
    intro c hc
    have hnil : (cs.drop (cs.length - 4)).filter
        (fun c => !(USABLE_CHARS.toList.contains c)) = [] :=
      List.eq_nil_of_length_eq_zero (Nat.eq_zero_of_not_pos hf)
    have := List.filter_eq_nil_iff.mp hnil c hc
    simpa using this

/-- Membership in the candidate enumeration puts all four free
characters in the legal alphabet. -/
theorem candidateQuads_mem {c1 c2 c3 c4 : Char}
    (h : (c1, c2, c3, c4) ∈ candidateQuads) :
    c1 ∈ USABLE_CHARS.toList ∧ c2 ∈ USABLE_CHARS.toList ∧
    c3 ∈ USABLE_CHARS.toList ∧ c4 ∈ USABLE_CHARS.toList := by
  unfold candidateQuads at h
  simp only [List.mem_flatMap, List.mem_map] at h
  obtain ⟨a1, h1, a2, h2, a3, h3, a4, h4, heq⟩ := h
  cases heq
  exact ⟨h1, h2, h3, h4⟩

/-- C1 (amended): for a skeleton drawn entirely from the legal alphabet,
a successful forcer run returns a string whose UTF-8 bytes hash to the
target and whose characters all lie in the legal alphabet. -/
theorem C1_forcer_sound (skel : String) (T : Nat) (S : List Char)
    (hskel : ∀ c ∈ skel.toList, c ∈ USABLE_CHARS.toList)
    (h : generateStrWithNewCRC skel T = .ok (some S)) :
    crc32 (encodeUtf8 S) = T ∧ ∀ c ∈ S, c ∈ USABLE_CHARS.toList := by
  obtain ⟨q, hq, ht⟩ := searchQuads_ok_some candidateQuads h
  obtain ⟨c1, c2, c3, c4⟩ := q
  obtain ⟨h1, h2, h3, h4⟩ := candidateQuads_mem hq
  obtain ⟨bytes, hm, hd, hlast⟩ := tryQuad_ok_some ht
  obtain ⟨hcrc, cbytes, he, hlen, htake⟩ := modify_string_crc32_ok_inv hm
  -- the ASCII encoding of the candidate
  have hcand : (candidateString skel (c1, c2, c3, c4)).toList =
      skel.toList ++ [c1, c2, c3, c4] ++ ['0', '0', '0', '0'] := rfl
  have hcb : cbytes = (skel.toList ++ [c1, c2, c3, c4] ++ ['0', '0', '0', '0']).map
      Char.toNat := by
    unfold encodeAscii at he
    split_ifs at he with hall
    cases he
    rw [hcand]
  have hLcb : cbytes.length = skel.toList.length + 8 := by
    rw [hcb]; simp
  -- every character of the candidate prefix is legal, hence ASCII
  have hpre_legal : ∀ c ∈ skel.toList ++ [c1, c2, c3, c4], c ∈ USABLE_CHARS.toList := by
    intro c hc
    rcases List.mem_append.mp hc with hc | hc
    · exact hskel c hc
    · simp only [List.mem_cons, List.not_mem_nil, or_false] at hc
      rcases hc with rfl | rfl | rfl | rfl
      · exact h1
      · exact h2
      · exact h3
      · exact h4
  -- the patched bytes agree with the candidate off the last four bytes
  have hpre : bytes.take (cbytes.length - 4) =
      (skel.toList ++ [c1, c2, c3, c4]).map Char.toNat := by
    rw [htake (cbytes.length - 4) (by omega)]
    rw [show cbytes.length - 4 = ((skel.toList ++ [c1, c2, c3, c4]).map Char.toNat).length
      by simp [hLcb]]
    rw [hcb]
    rw [show (skel.toList ++ [c1, c2, c3, c4] ++ ['0', '0', '0', '0']).map Char.toNat =
      (skel.toList ++ [c1, c2, c3, c4]).map Char.toNat ++
        (['0', '0', '0', '0'] : List Char).map Char.toNat by simp]
    exact List.take_left _ _
  have hsplit : bytes = ((skel.toList ++ [c1, c2, c3, c4]).map Char.toNat) ++
      bytes.drop (cbytes.length - 4) := by
    conv_lhs => rw [← List.take_append_drop (cbytes.length - 4) bytes]
    rw [hpre]
  -- decode splits over the ASCII prefix
  have hpre_ascii : ∀ b ∈ (skel.toList ++ [c1, c2, c3, c4]).map Char.toNat, b < 0x80 := by
    intro b hb
    obtain ⟨c, hc, rfl⟩ := List.mem_map.mp hb
    exact usable_chars_ascii c (hpre_legal c hc)
  have hd0 := hd
  rcases hdt : decodeUtf8 (bytes.drop (cbytes.length - 4)) with _ | tailChars
  · rw [hsplit, decodeUtf8_ascii_append _ hpre_ascii, hdt] at hd
    cases hd
  rw [hsplit, decodeUtf8_ascii_append _ hpre_ascii, hdt] at hd
  dsimp only [Option.map] at hd
  have hmapid : ((skel.toList ++ [c1, c2, c3, c4]).map Char.toNat).map Char.ofNat =
      skel.toList ++ [c1, c2, c3, c4] := by
    rw [List.map_map]
    have hgen : ∀ cs : List Char, cs.map (Char.ofNat ∘ Char.toNat) = cs := by
      intro cs
      induction cs with
      | nil => rfl
      | cons c rest ih => simp [ih, Char.ofNat_toNat]
    exact hgen _
  have hS : S = (skel.toList ++ [c1, c2, c3, c4]) ++ tailChars := by
    injection hd with hd1
    rw [← hd1, hmapid]
  -- tail characters sit inside the checked window
  have htail_len : tailChars.length ≤ 4 := by
    have := decodeUtf8_length_le _ _ hdt
    have hblen : bytes.length = cbytes.length := hlen
    have : tailChars.length ≤ (bytes.drop (cbytes.length - 4)).length := this
    simp [List.length_drop] at this
    omega
  have htail_legal : ∀ c ∈ tailChars, c ∈ USABLE_CHARS.toList := by
    intro c hc
    apply hlast
    rw [hS, List.drop_append_eq_append_drop]
    refine List.mem_append.mpr (Or.inr ?_)
    rw [Nat.sub_eq_zero_of_le (by simp; omega)]
    exact hc
  -- all characters legal
  have hall : ∀ c ∈ S, c ∈ USABLE_CHARS.toList := by
    intro c hc
    rw [hS] at hc
    rcases List.mem_append.mp hc with hc | hc
    · exact hpre_legal c hc
    · exact htail_legal c hc
  refine ⟨?_, hall⟩
  have hSascii : ∀ c ∈ S, c.toNat < 0x80 := fun c hc => usable_chars_ascii c (hall c hc)
  have hbytesS : bytes = S.map Char.toNat := decodeUtf8_ascii_inv _ _ hd0 hSascii
  rw [encodeUtf8_ascii S hSascii, ← hbytesS]
  exact hcrc


theorem C1_forcer_sound_witness :
    (∀ c ∈ "ab".toList, c ∈ USABLE_CHARS.toList) ∧
    crc32 (encodeUtf8 "ab00000000".toList) = 168885360 ∧
    ∀ c ∈ "ab00000000".toList, c ∈ USABLE_CHARS.toList := by
  have hq : candidateQuads = ('0', '0', '0', '0') :: candidateQuads.tail := rfl
  have hm : modify_string_crc32 (candidateString "ab" ('0', '0', '0', '0')) 168885360 =
      .ok ([97, 98] ++ List.replicate 8 48) := rfl
  have hd : decodeUtf8 ([97, 98] ++ List.replicate 8 48) = some "ab00000000".toList := rfl
  have h1 : tryQuad "ab" 168885360 ('0', '0', '0', '0') = .ok (some "ab00000000".toList) := by
    simp only [tryQuad, hm, hd]
    rfl
  have hgen : generateStrWithNewCRC "ab" 168885360 = .ok (some "ab00000000".toList) := by
    simp only [generateStrWithNewCRC]
    rw [hq]
    simp only [searchQuads, h1]
  exact ⟨by decide, C1_forcer_sound "ab" 168885360 _ (by decide) hgen⟩

/-- C1 counterexample: with the skeleton actually built by the caller
(decimal hash plus a `"."` separator), a successful forcer run returns a
string containing the separator, which is outside the legal alphabet. -/
theorem C1_counterexample :
    generateStrWithNewCRC "0000000005." 1766439240 =
      .ok (some "0000000005.00000000".toList) ∧
    ¬ (∀ c ∈ "0000000005.00000000".toList, c ∈ USABLE_CHARS.toList) := by
  have hq : candidateQuads = ('0', '0', '0', '0') :: candidateQuads.tail := rfl
  have hm : modify_string_crc32 (candidateString "0000000005." ('0', '0', '0', '0'))
      1766439240 = .ok ("0000000005.00000000".toList.map Char.toNat) := rfl
  have hd : decodeUtf8 ("0000000005.00000000".toList.map Char.toNat) =
      some "0000000005.00000000".toList := rfl
  have h1 : tryQuad "0000000005." 1766439240 ('0', '0', '0', '0') =
      .ok (some "0000000005.00000000".toList) := by
    simp only [tryQuad, hm, hd]
    rfl
  refine ⟨?_, by decide⟩
  simp only [generateStrWithNewCRC]
  rw [hq]
  simp only [searchQuads, h1]


/-- Length of a `flatMap` whose branches all have the same length. -/
theorem flatMap_length_const {α β : Type} (l : List α) (f : α → List β) (c : Nat)
    (h : ∀ a ∈ l, (f a).length = c) : (l.flatMap f).length = l.length * c := by
  induction l with
  | nil => simp
  | cons a t ih =>
    simp only [List.flatMap_cons, List.length_append, List.length_cons]
    rw [h a (by simp), ih (fun x hx => h x (by simp [hx]))]
    ring

/-- The candidate space of the forcer is the full quadruple product of
the 36-character alphabet. -/
theorem candidateQuads_length : candidateQuads.length = 36 ^ 4 := by
  have h36 : USABLE_CHARS.toList.length = 36 := by decide
  have h4 : ∀ c1 c2 c3 : Char,
      ((USABLE_CHARS.toList.map fun c4 => (c1, c2, c3, c4)).length) = 36 := by
    intro c1 c2 c3
    rw [List.length_map, h36]
  have h3 : ∀ c1 c2 : Char,
      ((USABLE_CHARS.toList.flatMap fun c3 =>
        USABLE_CHARS.toList.map fun c4 => (c1, c2, c3, c4)).length) = 36 * 36 := by
    intro c1 c2
    rw [flatMap_length_const _ _ 36 (fun a _ => h4 c1 c2 a), h36]
  have h2 : ∀ c1 : Char,
      ((USABLE_CHARS.toList.flatMap fun c2 =>
        USABLE_CHARS.toList.flatMap fun c3 =>
          USABLE_CHARS.toList.map fun c4 => (c1, c2, c3, c4)).length) = 36 * (36 * 36) := by
    intro c1
    rw [flatMap_length_const _ _ (36 * 36) (fun a _ => h3 c1 a), h36]
  unfold candidateQuads
  rw [flatMap_length_const _ _ (36 * (36 * 36)) (fun a _ => h2 a), h36]
  norm_num

/-- Exhausting a quadruple list without an acceptance yields the
`-1` outcome. -/
theorem searchQuads_exhaust (s : String) (T : Nat) :
    ∀ qs, (∀ q ∈ qs, tryQuad s T q = .ok none) → searchQuads s T qs = .ok none := by
  intro qs
  induction qs with
  | nil => intro _; rfl
  | cons q rest ih =>
    intro h
    unfold searchQuads
    rw [h q (by simp)]
    exact ih (fun x hx => h x (by simp [hx]))

/-- C3 (amended): the forcer enumerates the full quadruple-nested
product of the 36-character alphabet — `36 ^ 4` candidates, not
`36 ^ 3` — and the search terminates either at the first accepted
candidate or by exhausting that bounded space. -/
theorem C3_search_space (s : String) (T : Nat) :
    candidateQuads.length = 36 ^ 4 ∧
    (∀ qs, (∀ q ∈ qs, tryQuad s T q = .ok none) → searchQuads s T qs = .ok none) ∧
    (∀ q rest S, tryQuad s T q = .ok (some S) →
      searchQuads s T (q :: rest) = .ok (some S)) := by
  refine ⟨candidateQuads_length, searchQuads_exhaust s T, ?_⟩
  intro q rest S h
  unfold searchQuads
  rw [h]

/-- C3 counterexample: the candidate space has `36 ^ 4` elements and is
not bounded by the claimed `36 ^ 3`. -/
theorem C3_counterexample :
    candidateQuads.length = 36 ^ 4 ∧ ¬ candidateQuads.length ≤ 36 ^ 3 := by
  refine ⟨candidateQuads_length, ?_⟩
  rw [candidateQuads_length]
  norm_num

theorem C3_search_space_witness :
    candidateQuads.length = 36 ^ 4 ∧
    searchQuads "ab" 168885360 [('0', '0', '0', '1')] = .ok none ∧
    searchQuads "ab" 168885360 [('0', '0', '0', '0'), ('0', '0', '0', '1')] =
      .ok (some "ab00000000".toList) := by
  have hm1 : modify_string_crc32 (candidateString "ab" ('0', '0', '0', '1')) 168885360 =
      .ok [97, 98, 48, 48, 48, 49, 166, 0, 55, 71] := rfl
  have hd1 : decodeUtf8 [97, 98, 48, 48, 48, 49, 166, 0, 55, 71] = none := rfl
  have ht1 : tryQuad "ab" 168885360 ('0', '0', '0', '1') = .ok none := by
    simp only [tryQuad, hm1, hd1]
  have hm0 : modify_string_crc32 (candidateString "ab" ('0', '0', '0', '0')) 168885360 =
      .ok ([97, 98] ++ List.replicate 8 48) := rfl
  have hd0 : decodeUtf8 ([97, 98] ++ List.replicate 8 48) = some "ab00000000".toList := rfl
  have ht0 : tryQuad "ab" 168885360 ('0', '0', '0', '0') =
      .ok (some "ab00000000".toList) := by
    simp only [tryQuad, hm0, hd0]
    rfl
  refine ⟨(C3_search_space "ab" 168885360).1, ?_, ?_⟩
  · refine (C3_search_space "ab" 168885360).2.1 [('0', '0', '0', '1')] ?_
    intro q hq
    simp only [List.mem_singleton] at hq
    subst hq
    exact ht1
  · exact (C3_search_space "ab" 168885360).2.2 ('0', '0', '0', '0')
      [('0', '0', '0', '1')] _ ht0


/-- `dict[k]` after `dict[key] = v`. -/
theorem dictLookup_upsert {α β : Type} [DecidableEq α] :
    ∀ (d : List (α × β)) (key : α) (v : β) (k : α),
      dictLookup (dictUpsert d key v) k =
        if key = k then some v else dictLookup d k := by
  intro d key v
  induction d with
  | nil =>
    intro k
    simp [dictUpsert, dictLookup]
  | cons p rest ih =>
    intro k
    obtain ⟨k', v'⟩ := p
    by_cases h1 : k' = key
    · subst h1
      by_cases h2 : k' = k <;> simp [dictUpsert, dictLookup, h2]
    · by_cases h3 : key = k
      · subst h3
        by_cases h2 : k' = key
        · exact absurd h2 h1
        · simp [dictUpsert, dictLookup, h1, h2, ih]
      · by_cases h2 : k' = k
        · subst h2
          simp [dictUpsert, dictLookup, h1, h3, ih]
        · simp [dictUpsert, dictLookup, h1, h2, h3, ih]

/-- Lookup in the hash index built by the folding loop: the LAST name
with a given checksum wins. -/
theorem getSoundscripts_lookup_foldl :
    ∀ (names : List String) (d : List (Nat × String)) (k : Nat),
      dictLookup
        (names.foldl (fun d s => dictUpsert d (crc32 (encodeUtf8 s.toList)) s) d) k =
      match names.reverse.find? (fun s => crc32 (encodeUtf8 s.toList) == k) with
      | some t => some t
      | none => dictLookup d k := by
  intro names
  induction names with
  | nil =>
    intro d k
    simp
  | cons s rest ih =>
    intro d k
    simp only [List.foldl_cons, List.reverse_cons]
    rw [ih, List.find?_append]
    cases hf : rest.reverse.find? (fun t => crc32 (encodeUtf8 t.toList) == k) with
    | some t => simp [Option.or]
    | none =>
      rw [Option.none_or, dictLookup_upsert]
      by_cases hk : crc32 (encodeUtf8 s.toList) = k
      · have hk' : crc32 (encodeUtf8 s.data) = k := hk
        have hfind : [s].find? (fun t => crc32 (encodeUtf8 t.toList) == k) = some s := by
          simp [List.find?, hk']
        rw [hfind, if_pos hk]
      · have hb : (crc32 (encodeUtf8 s.data) == k) = false :=
          beq_eq_false_iff_ne.mpr hk
        have hfind : [s].find? (fun t => crc32 (encodeUtf8 t.toList) == k) = none := by
          simp [List.find?, hb]
        rw [hfind, if_neg hk]

/-- C5 (amended): a checksum collision in the index build is silently
resolved in favour of the LAST-seen candidate — the plain dict
assignment in the loop overwrites the earlier name, and the function
surfaces no collision signal. -/
theorem C5_collision_last_write_wins (names : List String) (k : Nat) :
    dictLookup (getSoundscriptsFromFiles names) k =
      names.reverse.find? (fun s => crc32 (encodeUtf8 s.toList) == k) := by
  unfold getSoundscriptsFromFiles
  rw [getSoundscripts_lookup_foldl]
  cases names.reverse.find? (fun s => crc32 (encodeUtf8 s.toList) == k) <;> rfl

/-- C5 counterexample: two distinct names with the same CRC-32; the
index build keeps the SECOND one and drops the first without any
collision signal, contradicting first-seen-wins. -/
theorem C5_counterexample :
    crc32 (encodeUtf8 "qlqbjoy".toList) = crc32 (encodeUtf8 "8fbyuux".toList) ∧
    "qlqbjoy" ≠ "8fbyuux" ∧
    dictLookup (getSoundscriptsFromFiles ["qlqbjoy", "8fbyuux"])
      (crc32 (encodeUtf8 "qlqbjoy".toList)) = some "8fbyuux" :=
  ⟨rfl, by decide, rfl⟩


/-- C6 (amended): on an exhausted stream the caption loop raises no
error at all — each `file.read(2)` silently returns no bytes, the empty
chunk decodes to the empty string, and the loop runs to completion with
the caption text silently truncated (the stream position no longer
advancing). -/
theorem C6_truncation_is_silent (n : Nat) (st : ByteStream) (acc : String)
    (tr : List Nat) (h : st.data.length ≤ st.pos) :
    readCaptionGo n st acc tr = .ok (acc, st, tr ++ List.replicate n st.pos) := by
  have hdrop : st.data.drop st.pos = [] := List.drop_eq_nil_of_le h
  induction n generalizing tr with
  | zero => simp [readCaptionGo]
  | succ n ih =>
    show readCaptionGo (n + 1) st acc tr = _
    unfold readCaptionGo
    simp only [fread, hdrop, List.take_nil, List.length_nil, Nat.add_zero]
    show readCaptionGo n ⟨st.data, st.pos⟩ (acc ++ "") (tr ++ [st.pos]) = _
    rw [show acc ++ "" = acc from String.append_empty acc]
    rw [ih (tr ++ [st.pos])]
    simp [List.replicate_succ]

/-- C6 counterexample: a directory entry declaring 6 bytes against a
2-byte stream does not abort — the read returns successfully with a
silently truncated caption and partial output, never raising an error. -/
theorem C6_counterexample :
    readCaptionBlocks ⟨[0x61, 0], 0⟩ [⟨5, 0, 0, 6⟩] [] 0 8192 false =
      .ok ([("0000000005", "a")], 0, [0, 2, 2, 2]) ∧
    ∀ err, readCaptionBlocks ⟨[0x61, 0], 0⟩ [⟨5, 0, 0, 6⟩] [] 0 8192 false ≠
      .error err := by
  constructor
  · rfl
  · intro err h
    rw [show readCaptionBlocks ⟨[0x61, 0], 0⟩ [⟨5, 0, 0, 6⟩] [] 0 8192 false =
      .ok ([("0000000005", "a")], 0, [0, 2, 2, 2]) from rfl] at h
    cases h

theorem C6_truncation_is_silent_witness :
    readCaptionGo 2 ⟨[0x61, 0], 2⟩ "a" [0, 2] =
      .ok ("a", ⟨[0x61, 0], 2⟩, [0, 2, 2, 2]) :=
  C6_truncation_is_silent 2 ⟨[0x61, 0], 2⟩ "a" [0, 2] (by decide)


/-- Bytes consumed from the stream by one directory entry: the caption
reads plus the 2-byte terminator read (an upper bound when the stream
runs dry). -/
def entryConsumed (e : DirEntry) : Nat := 2 * (e.length / 2 - 1) + 2

/-- The block data of every entry stays inside its declared block: the
position after an entry's reads never passes the end of that entry's
block, so a later seek to a higher block can only move forward. -/
def blocksFit (D BS : Nat) : Nat → Nat → List DirEntry → Prop
  | _, _, [] => True
  | blockIndex, pos, e :: rest =>
    (if e.index > blockIndex then D + BS * e.index else pos) + entryConsumed e ≤
      D + BS * (e.index + 1) ∧
    blocksFit D BS e.index
      ((if e.index > blockIndex then D + BS * e.index else pos) + entryConsumed e) rest

theorem blocksFit_mono (D BS : Nat) : ∀ (entries : List DirEntry) (bi p p' : Nat),
    p' ≤ p → blocksFit D BS bi p entries → blocksFit D BS bi p' entries := by
  intro entries
  induction entries with
  | nil => intro bi p p' _ _; trivial
  | cons e rest ih =>
    intro bi p p' hle h
    obtain ⟨h1, h2⟩ := h
    by_cases hgt : e.index > bi
    · rw [if_pos hgt] at h1 h2
      refine ⟨?_, ?_⟩
      · rw [if_pos hgt]
        exact h1
      · rw [if_pos hgt]
        exact h2
    · rw [if_neg hgt] at h1 h2
      refine ⟨?_, ?_⟩
      · rw [if_neg hgt]
        omega
      · rw [if_neg hgt]
        exact ih e.index (p + entryConsumed e) (p' + entryConsumed e) (by omega) h2

theorem chain_le_replace_last {l : List Nat} {a b : Nat}
    (h : List.Chain' (· ≤ ·) (l ++ [a])) (hab : a ≤ b) :
    List.Chain' (· ≤ ·) (l ++ [b]) := by
  rw [List.chain'_append] at h ⊢
  obtain ⟨h1, _, h3⟩ := h
  refine ⟨h1, List.chain'_singleton _, ?_⟩
  intro x hx y hy
  simp only [List.head?_cons, Option.mem_def, Option.some.injEq] at hy
  subst hy
  exact le_trans (h3 x hx a (by simp)) hab

theorem chain_le_snoc {l : List Nat} {a b : Nat}
    (h : List.Chain' (· ≤ ·) (l ++ [a])) (hab : a ≤ b) :
    List.Chain' (· ≤ ·) ((l ++ [a]) ++ [b]) := by
  rw [List.chain'_append]
  refine ⟨h, List.chain'_singleton _, ?_⟩
  intro x hx y hy
  simp only [List.getLast?_concat, Option.mem_def, Option.some.injEq] at hx
  simp only [List.head?_cons, Option.mem_def, Option.some.injEq] at hy
  subst hx
  subst hy
  exact hab

/-- The caption loop keeps the same underlying bytes, moves the
position forward by at most two bytes per iteration, and appends only
nondecreasing positions to the trace. -/
theorem readCaptionGo_chain :
    ∀ (n : Nat) (st : ByteStream) (acc : String) (tr : List Nat)
      (cap : String) (st' : ByteStream) (tr' : List Nat),
      readCaptionGo n st acc tr = .ok (cap, st', tr') →
      List.Chain' (· ≤ ·) (tr ++ [st.pos]) →
      st'.data = st.data ∧ st.pos ≤ st'.pos ∧ st'.pos ≤ st.pos + 2 * n ∧
      List.Chain' (· ≤ ·) (tr' ++ [st'.pos]) := by
  intro n
  induction n with
  | zero =>
    intro st acc tr cap st' tr' h hc
    cases h
    exact ⟨rfl, le_rfl, by omega, hc⟩
  | succ n ih =>
    intro st acc tr cap st' tr' h hc
    unfold readCaptionGo at h
    dsimp only [fread] at h
    rcases hdec : decodeUtf16lePair ((st.data.drop st.pos).take 2) with e | s1
    · rw [hdec] at h
      cases h
    · rw [hdec] at h
      dsimp only at h
      have hlen : ((st.data.drop st.pos).take 2).length ≤ 2 :=
        List.length_take_le 2 (st.data.drop st.pos)
      have hc2 : List.Chain' (· ≤ ·)
          ((tr ++ [st.pos + ((st.data.drop st.pos).take 2).length]) ++
            [st.pos + ((st.data.drop st.pos).take 2).length]) :=
        chain_le_snoc (chain_le_replace_last hc (by omega)) le_rfl
      obtain ⟨hdata, h1, h2, h3⟩ := ih _ _ _ _ _ _ h hc2
      have hdata' : st'.data = st.data := hdata
      have h1' : st.pos + ((st.data.drop st.pos).take 2).length ≤ st'.pos := h1
      have h2' : st'.pos ≤ st.pos + ((st.data.drop st.pos).take 2).length + 2 * n := h2
      exact ⟨hdata', by omega, by omega, h3⟩

/-- Given `blocksFit`, the per-entry loop only ever appends
nondecreasing stream positions to its trace. -/
theorem readBlocksGo_chain (cands : List (Nat × String)) (D BS : Nat) (sh : Bool) :
    ∀ (entries : List DirEntry) (st : ByteStream) (blockIndex m : Nat)
      (caps : List (String × String)) (tr : List Nat)
      (caps' : List (String × String)) (m' : Nat) (tr' : List Nat),
      readBlocksGo cands D BS sh entries st blockIndex m caps tr = .ok (caps', m', tr') →
      blocksFit D BS blockIndex st.pos entries →
      st.pos ≤ D + BS * (blockIndex + 1) →
      List.Chain' (· ≤ ·) (tr ++ [st.pos]) →
      List.Chain' (· ≤ ·) tr' := by
  intro entries
  induction entries with
  | nil =>
    intro st bi m caps tr caps' m' tr' h _ _ hc
    cases h
    exact (List.chain'_append.mp hc).1
  | cons e rest ih =>
    intro st bi m caps tr caps' m' tr' h hfit hpos hc
    obtain ⟨hfit1, hfit2⟩ := hfit
    unfold readBlocksGo at h
    by_cases hgt : e.index > bi
    · -- a forward seek to the start of block `e.index`
      rw [if_pos hgt, if_pos hgt] at h
      dsimp only at h
      rw [if_pos hgt] at hfit1 hfit2
      have hfwd : st.pos ≤ D + BS * e.index := by
        have : BS * (bi + 1) ≤ BS * e.index := Nat.mul_le_mul_left BS (by omega)
        omega
      have hc1 : List.Chain' (· ≤ ·)
          ((tr ++ [D + BS * e.index]) ++ [D + BS * e.index]) :=
        chain_le_snoc (chain_le_replace_last hc hfwd) le_rfl
      rcases hcap : readCaptionGo (e.length / 2 - 1) (fseek (D + BS * e.index) st) ""
          (tr ++ [D + BS * e.index]) with err | ⟨caption, st2, tr2⟩
      · rw [hcap] at h
        cases h
      rw [hcap] at h
      dsimp only [fread] at h
      obtain ⟨hdata2, hp2a, hp2b, hc2⟩ := readCaptionGo_chain _ _ _ _ _ _ _ hcap hc1
      have hlen3 : ((st2.data.drop st2.pos).take 2).length ≤ 2 :=
        List.length_take_le 2 (st2.data.drop st2.pos)
      have hc3 : List.Chain' (· ≤ ·)
          ((tr2 ++ [st2.pos + ((st2.data.drop st2.pos).take 2).length]) ++
            [st2.pos + ((st2.data.drop st2.pos).take 2).length]) :=
        chain_le_snoc (chain_le_replace_last hc2 (by omega)) le_rfl
      have hbound : st2.pos + ((st2.data.drop st2.pos).take 2).length ≤
          D + BS * (e.index + 1) := by
        have : st2.pos ≤ (D + BS * e.index) + 2 * (e.length / 2 - 1) := hp2b
        unfold entryConsumed at hfit1
        omega
      have hfit' : blocksFit D BS e.index
          (st2.pos + ((st2.data.drop st2.pos).take 2).length) rest := by
        apply blocksFit_mono D BS rest e.index ((D + BS * e.index) + entryConsumed e)
        · unfold entryConsumed
          have : st2.pos ≤ (D + BS * e.index) + 2 * (e.length / 2 - 1) := hp2b
          omega
        · exact hfit2
      split at h
      all_goals try split at h
      all_goals try split at h
      all_goals try split at h
      all_goals first
        | cases h
        | exact ih _ _ _ _ _ _ _ _ h hfit' hbound hc3
    · -- no seek: the stream continues forward from where it is
      rw [if_neg hgt, if_neg hgt] at h
      dsimp only at h
      rw [if_neg hgt] at hfit1 hfit2
      rcases hcap : readCaptionGo (e.length / 2 - 1) st "" tr
          with err | ⟨caption, st2, tr2⟩
      · rw [hcap] at h
        cases h
      rw [hcap] at h
      dsimp only [fread] at h
      obtain ⟨hdata2, hp2a, hp2b, hc2⟩ := readCaptionGo_chain _ _ _ _ _ _ _ hcap hc
      have hlen3 : ((st2.data.drop st2.pos).take 2).length ≤ 2 :=
        List.length_take_le 2 (st2.data.drop st2.pos)
      have hc3 : List.Chain' (· ≤ ·)
          ((tr2 ++ [st2.pos + ((st2.data.drop st2.pos).take 2).length]) ++
            [st2.pos + ((st2.data.drop st2.pos).take 2).length]) :=
        chain_le_snoc (chain_le_replace_last hc2 (by omega)) le_rfl
      have hbound : st2.pos + ((st2.data.drop st2.pos).take 2).length ≤
          D + BS * (e.index + 1) := by
        have : st2.pos ≤ st.pos + 2 * (e.length / 2 - 1) := hp2b
        unfold entryConsumed at hfit1
        omega
      have hfit' : blocksFit D BS e.index
          (st2.pos + ((st2.data.drop st2.pos).take 2).length) rest := by
        apply blocksFit_mono D BS rest e.index (st.pos + entryConsumed e)
        · unfold entryConsumed
          have : st2.pos ≤ st.pos + 2 * (e.length / 2 - 1) := hp2b
          omega
        · exact hfit2
      split at h
      all_goals try split at h
      all_goals try split at h
      all_goals try split at h
      all_goals first
        | cases h
        | exact ih _ _ _ _ _ _ _ _ h hfit' hbound hc3

/-- C9 (amended): monotone block indices alone do NOT keep the stream
position from moving backward; the missing side condition is that each
entry's block data stays inside its declared block (`blocksFit`).
Under it, every position recorded while reading caption blocks is
nondecreasing. -/
theorem C9_monotone_seek (st : ByteStream) (entries : List DirEntry)
    (cands : List (Nat × String)) (D BS : Nat) (sh : Bool)
    (caps : List (String × String)) (m : Nat) (tr : List Nat)
    (hfit : blocksFit D BS 0 D entries)
    (h : readCaptionBlocks st entries cands D BS sh = .ok (caps, m, tr)) :
    List.Chain' (· ≤ ·) tr := by
  unfold readCaptionBlocks at h
  refine readBlocksGo_chain cands D BS sh entries (fseek D st) 0 0 [] [D] caps m tr h
    hfit ?_ ?_
  · show D ≤ D + BS * (0 + 1)
    omega
  · show List.Chain' (· ≤ ·) ([D] ++ [D])
    simp

/-- C9 counterexample: two directory entries visiting blocks 0 then 1 —
monotonically — with a block size of 2; the first block's caption data
overruns the block, so the seek to block 1 moves the position BACKWARD
from 6 to 2. -/
theorem C9_counterexample :
    ([⟨1, 0, 0, 6⟩, ⟨2, 1, 0, 2⟩] : List DirEntry).map DirEntry.index = [0, 1] ∧
    readCaptionBlocks ⟨[97, 0, 98, 0, 0, 0, 99, 0], 0⟩ [⟨1, 0, 0, 6⟩, ⟨2, 1, 0, 2⟩] [] 0 2
      false =
      .ok ([("0000000001", "ab"), ("0000000002", "")], 0, [0, 2, 4, 6, 2, 4]) ∧
    ¬ List.Chain' (· ≤ ·) [0, 2, 4, 6, 2, 4] := by
  refine ⟨rfl, rfl, fun h => ?_⟩
  have h62 : (6 : Nat) ≤ 2 :=
    (List.chain'_cons.mp ((List.chain'_cons.mp ((List.chain'_cons.mp
      ((List.chain'_cons.mp h).2)).2)).2)).1
  omega

theorem C9_monotone_seek_witness :
    List.Chain' (· ≤ ·) [0, 2, 4, 6, 8192, 8192] :=
  C9_monotone_seek ⟨[97, 0, 98, 0, 0, 0, 99, 0], 0⟩ [⟨1, 0, 0, 6⟩, ⟨2, 1, 0, 2⟩] [] 0 8192
    false [("0000000001", "ab"), ("0000000002", "")] 0 [0, 2, 4, 6, 8192, 8192]
    (by constructor
        · norm_num [entryConsumed]
        · constructor
          · norm_num [entryConsumed]
          · trivial)
    rfl


/-- A successful strict ASCII decode consumes one byte per character. -/
theorem decodeAscii_ok_length : ∀ (bs : List Nat) (M : String),
    decodeAscii bs = .ok M → bs.length = M.toList.length := by
  intro bs
  induction bs with
  | nil =>
    intro M h
    cases h
    rfl
  | cons b rest ih =>
    intro M h
    unfold decodeAscii at h
    split_ifs at h with hb
    rcases hr : decodeAscii rest with e | s
    · rw [hr] at h
      cases h
    · rw [hr] at h
      dsimp only at h
      cases h
      simp [ih s hr]

/-- C7: a magic tag other than `"VCCD"` (or an unreadable one), or a
version field other than 1, aborts `main` with an error before any
directory entry or caption block is read, leaving no output. -/
theorem C7_header_abort (data : List Nat) (fs : List String) (args : Args) (lang : String)
    (h : decodeAscii (data.take 4) ≠ .ok "VCCD" ∨
      leBytesToNat ((data.drop 4).take 4) ≠ 1) :
    ∃ e, runMain data fs args lang = .error e := by
  unfold runMain
  dsimp only [fread, List.drop_zero]
  rcases hm : decodeAscii (data.take 4) with e | M
  · exact ⟨e, rfl⟩
  · by_cases hM : M = "VCCD"
    · subst hM
      rcases h with h | h
      · exact absurd hm h
      · have hlen : (data.take 4).length = 4 := by
          rw [decodeAscii_ok_length _ _ hm]
          rfl
        dsimp only
        rw [if_neg (show ¬("VCCD" ≠ "VCCD") from by simp)]
        simp only [hlen, Nat.zero_add]
        rw [if_pos h]
        exact ⟨_, rfl⟩
    · dsimp only
      rw [if_pos hM]
      exact ⟨_, rfl⟩

theorem C7_header_abort_witness :
    (∃ e, runMain [0, 0, 0, 0] [] ⟨4, false, false, false⟩ "" = .error e) ∧
    (∃ e, runMain ([86, 67, 67, 68] ++ [2, 0, 0, 0]) [] ⟨4, false, false, false⟩ "" =
      .error e) :=
  ⟨C7_header_abort [0, 0, 0, 0] [] ⟨4, false, false, false⟩ ""
     (Or.inl (by
       intro hx
       rw [show decodeAscii (List.take 4 [0, 0, 0, 0]) =
         .ok (String.mk [Char.ofNat 0, Char.ofNat 0, Char.ofNat 0, Char.ofNat 0])
         from rfl] at hx
       have hs : String.mk [Char.ofNat 0, Char.ofNat 0, Char.ofNat 0, Char.ofNat 0] =
           "VCCD" := by
         injection hx
       exact absurd hs (by decide))),
   C7_header_abort ([86, 67, 67, 68] ++ [2, 0, 0, 0]) [] ⟨4, false, false, false⟩ ""
     (Or.inr (by decide))⟩


/-- C8: the emitted pad counts follow the stated formulas — in the
default (tab-unit) mode `ceil(M / p) - floor((k + 2) / p)`, in spaces
mode the exact count reaching the next padding-aligned column after
`M` (their sum with the quoted key width is that column, a multiple of
the unit), and with alignment disabled every key gets the single fixed
`padChar` unit. -/
theorem C8_pad_formulas (args : Args) (M k : Nat) (hp : 0 < args.padding) :
    (args.tabs = false →
      padAmountOf args M k = M ⌈/⌉ args.padding - (k + 2) / args.padding) ∧
    (args.tabs = true → k + 2 ≤ M + (args.padding - M % args.padding) →
      padAmountOf args M k + (k + 2) = M + (args.padding - M % args.padding) ∧
      (M + (args.padding - M % args.padding)) % args.padding = 0 ∧
      M < M + (args.padding - M % args.padding)) ∧
    (args.no_align = true → paddingAlignmentOf args M k = padCharOf args) := by
  refine ⟨?_, ?_, ?_⟩
  · intro ht
    simp only [padAmountOf, ht, Bool.false_eq_true, if_false]
    rw [Nat.ceilDiv_eq_add_pred_div]
  · intro ht h2
    have hmod : M % args.padding < args.padding := Nat.mod_lt M hp
    refine ⟨?_, ?_, ?_⟩
    · simp only [padAmountOf, ht, if_true]
      omega
    · have htgt : M + (args.padding - M % args.padding) =
          args.padding * (M / args.padding + 1) := by
        rw [Nat.mul_succ]
        have hdm := Nat.div_add_mod M args.padding
        generalize args.padding * (M / args.padding) = X at hdm ⊢
        omega
      rw [htgt, Nat.mul_mod_right]
    · omega
  · intro hn
    simp [paddingAlignmentOf, hn]

theorem C8_pad_formulas_witness :
    padAmountOf ⟨4, false, false, false⟩ 14 3 = 14 ⌈/⌉ 4 - (3 + 2) / 4 ∧
    padAmountOf ⟨4, false, false, false⟩ 14 11 = 14 ⌈/⌉ 4 - (11 + 2) / 4 ∧
    padAmountOf ⟨4, true, false, false⟩ 14 3 + (3 + 2) = 14 + (4 - 14 % 4) ∧
    paddingAlignmentOf ⟨4, false, true, false⟩ 14 3 = padCharOf ⟨4, false, true, false⟩ :=
  ⟨(C8_pad_formulas ⟨4, false, false, false⟩ 14 3 (by decide)).1 rfl,
   (C8_pad_formulas ⟨4, false, false, false⟩ 14 11 (by decide)).1 rfl,
   ((C8_pad_formulas ⟨4, true, false, false⟩ 14 3 (by decide)).2.1 rfl (by decide)).1,
   (C8_pad_formulas ⟨4, false, true, false⟩ 14 3 (by decide)).2.2 rfl⟩

/-- C10 (amended): the `maxCaptionLength` adjustment dodges exact
multiples of the padding unit only for units of at least 2 (a unit of 1
divides everything, so the dodge is impossible there); the pad amount
itself is nevertheless at least 1 for every emitted key under any
positive unit, in both padding modes. -/
theorem C10_pad_at_least_one (args : Args) (maxLen k : Nat)
    (hp : 0 < args.padding) (hk : k ≤ maxLen) (hna : args.no_align = false) :
    (2 ≤ args.padding →
      adjustMaxCaptionLength args maxLen % args.padding ≠ 0) ∧
    1 ≤ padAmountOf args (adjustMaxCaptionLength args maxLen) k := by
  constructor
  · intro hp2
    unfold adjustMaxCaptionLength
    dsimp only
    split_ifs with hcond
    · obtain ⟨_, _, hdvd⟩ := hcond
      have hdm := Nat.div_add_mod (maxLen + 2) args.padding
      rw [hdvd] at hdm
      rw [show maxLen + 2 + 1 = args.padding * ((maxLen + 2) / args.padding) + 1 by
        omega]
      rw [Nat.mul_add_mod]
      rw [Nat.mod_eq_of_lt (by omega)]
      omega
    · intro hzero
      exact hcond ⟨by simp [hna], hp, hzero⟩
  · set M' := adjustMaxCaptionLength args maxLen with hM'
    have hM'ge : maxLen + 2 ≤ M' := by
      rw [hM']
      unfold adjustMaxCaptionLength
      dsimp only
      split_ifs <;> omega
    cases ht : args.tabs with
    | true =>
      have hmod : M' % args.padding < args.padding := Nat.mod_lt M' hp
      simp only [padAmountOf, ht, if_true]
      omega
    | false =>
      simp only [padAmountOf, ht, Bool.false_eq_true, if_false]
      have hsuff : (k + 2) / args.padding + 1 ≤
          (M' + args.padding - 1) / args.padding := by
        rw [Nat.le_div_iff_mul_le hp, Nat.add_mul, Nat.one_mul]
        have h1 : (k + 2) / args.padding * args.padding ≤
            (maxLen + 2) / args.padding * args.padding :=
          Nat.mul_le_mul_right args.padding (Nat.div_le_div_right (by omega))
        have hdm := Nat.div_add_mod (maxLen + 2) args.padding
        rw [Nat.mul_comm] at hdm
        have hM'cases : (maxLen + 2) % args.padding = 0 ∧ M' = maxLen + 2 + 1 ∨
            M' = maxLen + 2 ∧ (maxLen + 2) % args.padding ≠ 0 := by
          rw [hM']
          unfold adjustMaxCaptionLength
          dsimp only
          split_ifs with hcond
          · exact Or.inl ⟨hcond.2.2, rfl⟩
          · exact Or.inr ⟨rfl, fun hz => hcond ⟨by simp [hna], hp, hz⟩⟩
        generalize (k + 2) / args.padding * args.padding = A at h1 ⊢
        generalize (maxLen + 2) / args.padding * args.padding = B at h1 hdm
        rcases hM'cases with ⟨hz, hMv⟩ | ⟨hMv, hnz⟩
        · omega
        · omega
      omega

theorem C10_counterexample :
    adjustMaxCaptionLength ⟨1, false, false, false⟩ 3 = 6 ∧ 6 % 1 = 0 :=
  ⟨rfl, rfl⟩

theorem C10_pad_at_least_one_witness :
    ((2 ≤ (4 : Nat) →
      adjustMaxCaptionLength ⟨4, false, false, false⟩ 12 % 4 ≠ 0) ∧
      1 ≤ padAmountOf ⟨4, false, false, false⟩
        (adjustMaxCaptionLength ⟨4, false, false, false⟩ 12) 12) ∧
    1 ≤ padAmountOf ⟨1, true, false, false⟩
      (adjustMaxCaptionLength ⟨1, true, false, false⟩ 3) 3 :=
  ⟨C10_pad_at_least_one ⟨4, false, false, false⟩ 12 12 (by decide) (by decide) rfl,
   (C10_pad_at_least_one ⟨1, true, false, false⟩ 3 3 (by decide) (by decide) rfl).2⟩

end CaptionDecompiler
